import Mathlib

/-!
Verification of the incremental response renderer of the ai-tg-bot repository.

The development shallowly embeds the streaming-response code of
`bot/telegram/handlers/messages.py` and the text utilities of
`bot/utils/formatting.py`.  Python strings are modelled as `List Char`;
Python's slicing, `rfind`, `count`, `replace`, `strip`/`lstrip`/`rstrip`
and `split` are reimplemented below with Python's semantics
(non-overlapping counting and replacing, last-occurrence `rfind`,
whitespace stripping of `' '`, `'\t'`, `'\n'`, `'\r'`, `'\x0b'`, `'\x0c'`).

The third-party converter `telegramify_markdown.markdownify`
(`convert_to_telegram_markdown`) is not part of the repository; it is
modelled as an opaque parameter `conv : List Char → List Char` wherever the
source calls it.  Telegram delivery is modelled by recording each permanent
message in the state; transient draft/preview updates carry no durable
information and are not recorded (their effects on the tracked state
fields, such as the confirmation latch, are modelled faithfully).
-/

set_option autoImplicit false

abbrev Text := List Char

/-- Helper for `pyLen`; the accumulator is forced to a literal at every
step (the `match`) so that concrete runs of the model reduce iteratively
in the kernel. -/
def pyLenAux : Text → Nat → Nat
  | [], acc => acc
  | _ :: rest, acc =>
      match acc + 1 with
      | 0 => pyLenAux rest 0
      | Nat.succ m => pyLenAux rest (Nat.succ m)

/-- Python `len(s)` (provably equal to `List.length`). -/
def pyLen (s : Text) : Nat := pyLenAux s 0

/-- Python whitespace test used by `str.strip`/`lstrip`/`rstrip` (ASCII part). -/
def isPyWs (c : Char) : Bool :=
  c == ' ' || c == '\t' || c == '\n' || c == '\r' || c == Char.ofNat 11 || c == Char.ofNat 12

/-- Python `str.lstrip()`. -/
def lstrip (s : Text) : Text := s.dropWhile isPyWs

/-- Python `str.rstrip()`. -/
def rstrip (s : Text) : Text := (s.reverse.dropWhile isPyWs).reverse

/-- Python `str.strip()`. -/
def pyStrip (s : Text) : Text := lstrip (rstrip s)

/-- Helper for `countSubstr`: the `Nat` argument counts characters still to
skip after a match (Python counts non-overlapping occurrences). -/
def countSubstrAux (sub : Text) : Text → Nat → Nat → Nat
  | [], _, acc => acc
  | _ :: rest, Nat.succ k, acc => countSubstrAux sub rest k acc
  | c :: rest, 0, acc =>
      if sub.isPrefixOf (c :: rest) then countSubstrAux sub rest (sub.length - 1) (acc + 1)
      else countSubstrAux sub rest 0 acc

/-- Python `s.count(sub)` for non-empty `sub`: non-overlapping occurrences. -/
def countSubstr (sub s : Text) : Nat :=
  if sub.isEmpty then 0 else countSubstrAux sub s 0 0

/-- Helper for `pyRfind`: try index `i`, then `i-1`, ... down to `0`. -/
def rfindFrom (sub s : Text) : Nat → Option Nat
  | 0 => if sub.isPrefixOf s then some 0 else none
  | Nat.succ i => if sub.isPrefixOf (s.drop (i + 1)) then some (i + 1) else rfindFrom sub s i

/-- Python `s.rfind(sub)`: index of the last occurrence, `none` for Python's `-1`. -/
def pyRfind (sub s : Text) : Option Nat :=
  if sub.length ≤ pyLen s then rfindFrom sub s (pyLen s - sub.length) else none

/-- Python `s.split(sep)` for a single-character separator. -/
def splitOnChar (sep : Char) : Text → List Text
  | [] => [[]]
  | c :: rest =>
      match splitOnChar sep rest with
      | [] => [[c]]
      | h :: t => if c == sep then [] :: h :: t else (c :: h) :: t

/-- Python `"\n".join(lines)`. -/
def joinNl : List Text → Text
  | [] => []
  | [l] => l
  | l :: ls => l ++ '\n' :: joinNl ls

/-- Helper for `pyReplace`, with the same skip-counter scheme as `countSubstrAux`. -/
def pyReplaceAux (sub repl : Text) : Text → Nat → Text
  | [], _ => []
  | _ :: rest, Nat.succ k => pyReplaceAux sub repl rest k
  | c :: rest, 0 =>
      if sub.isPrefixOf (c :: rest) then repl ++ pyReplaceAux sub repl rest (sub.length - 1)
      else c :: pyReplaceAux sub repl rest 0

/-- Python `s.replace(sub, repl)` for non-empty `sub` (left-to-right,
non-overlapping). -/
def pyReplace (s sub repl : Text) : Text :=
  if sub.isEmpty then s else pyReplaceAux sub repl s 0

/-! ## `bot/utils/formatting.py` -/

def SAFE_MESSAGE_LENGTH : Nat := 3900

/-- `_escape_markdown_v2_full`: escape the backslash first, then every
MarkdownV2-special character, by successive `str.replace` passes. -/
def _escape_markdown_v2_full (text : Text) : Text :=
  let text := pyReplace text ['\\'] ['\\', '\\']
  ("_*[]()~`>#+-=|\x7b\x7d.!").toList.foldl (fun t c => pyReplace t [c] ['\\', c]) text

/-- `format_thinking_expanded`: escape, then prefix every line with `>`. -/
def format_thinking_expanded (thinking : Text) : Text :=
  if thinking.isEmpty then []
  else joinNl ((splitOnChar '\n' (_escape_markdown_v2_full thinking)).map (fun l => '>' :: l))

/-- `format_thinking_collapsed`: escape, `**>` on the first line, `>` on the
rest, `||` appended to the last line. -/
def format_thinking_collapsed (thinking : Text) : Text :=
  if thinking.isEmpty then []
  else
    let lines := splitOnChar '\n' (_escape_markdown_v2_full thinking)
    let quoted :=
      match lines with
      | [] => []
      | l0 :: rest => ("**>".toList ++ l0) :: rest.map (fun l => '>' :: l)
    let quoted :=
      match quoted.reverse with
      | [] => []
      | lastLine :: revInit => revInit.reverse ++ [lastLine ++ "||".toList]
    joinNl quoted

/-- `format_thinking_with_content`, with the external markdown converter as
the parameter `conv`. -/
def format_thinking_with_content (conv : Text → Text) (thinking content : Text) : Text :=
  if thinking.isEmpty then conv content
  else format_thinking_collapsed thinking ++ '\n' :: '\n' :: conv content

/-- The separator priority list of `find_split_point`. -/
def splitSeps : List Text := [['\n', '\n'], ['\n'], ['.', ' '], [' ']]

/-- The `for sep in [...]` loop body of `find_split_point`: Python's
`pos > max_length // 3` test on `rfind`'s result, `-1` modelled as `none`. -/
def findSplitGo (chunk : Text) (max_length : Nat) : List Text → Nat
  | [] => max_length
  | sep :: rest =>
      match pyRfind sep chunk with
      | some pos => if max_length / 3 < pos then pos + sep.length else findSplitGo chunk max_length rest
      | none => findSplitGo chunk max_length rest

/-- `find_split_point(text, max_length)` from `bot/utils/formatting.py`. -/
def find_split_point (text : Text) (max_length : Nat) : Nat :=
  findSplitGo (text.take max_length) max_length splitSeps

/-- `split_thinking(thinking, max_length)`.  The float expression
`int(max_length * 0.8) - 10` is modelled as `max_length * 8 / 10 - 10`,
which agrees with the Python float at the only call site (`max_length =
3700`, both give `2950`). -/
def split_thinking (thinking : Text) (max_length : Nat) : Text × Text :=
  if thinking.isEmpty then ([], [])
  else
    let estimated_raw_limit := max_length * 8 / 10 - 10
    if pyLen thinking ≤ estimated_raw_limit then (thinking, [])
    else
      let split_pos := find_split_point thinking estimated_raw_limit
      (rstrip (thinking.take split_pos), lstrip (thinking.drop split_pos))

/-- The `while remaining:` loop of `split_message`, with explicit fuel;
`none` means the fuel ran out before the loop exited (used to witness
non-termination at `max_length = 0`). -/
def split_message_loop (max_length : Nat) : Nat → Text → Option (List Text)
  | 0, _ => none
  | Nat.succ fuel, remaining =>
      if remaining.isEmpty then some []
      else if pyLen remaining ≤ max_length then some [remaining]
      else
        let split_pos := find_split_point remaining max_length
        match split_message_loop max_length fuel (lstrip (remaining.drop split_pos)) with
        | some parts => some (rstrip (remaining.take split_pos) :: parts)
        | none => none

/-- `split_message(text, max_length)`; fuel `text.length + 1` is proved
sufficient whenever `1 ≤ max_length`. -/
def split_message (text : Text) (max_length : Nat) : Option (List Text) :=
  if pyLen text ≤ max_length then some [text] else split_message_loop max_length (pyLen text + 1) text

/-! ## `bot/telegram/handlers/messages.py` -/

/-- Minimum characters to confirm final response. -/
def FINAL_CONTENT_MIN_LENGTH : Nat := 100

/-- The binary-search loop of `_fit_formatted_chunk`, with explicit fuel
(the gap `high + 1 - low` strictly shrinks each iteration, so
`text.length + 1` iterations always suffice); the accumulator is
`(best_raw, best_formatted)`. -/
def fitGo (formatter : Text → Text) (text : Text) (max_length : Nat) :
    Nat → Nat → Nat → Text × Text → Text × Text
  | 0, _, _, best => best
  | Nat.succ fuel, low, high, best =>
      if low ≤ high then
        let mid := (low + high) / 2
        let raw := text.take mid
        let formatted := formatter raw
        if pyLen formatted ≤ max_length then
          fitGo formatter text max_length fuel (mid + 1) high (raw, formatted)
        else
          fitGo formatter text max_length fuel low (mid - 1) best
      else best

/-- `_fit_formatted_chunk(text, max_length, formatter)`: largest prefix whose
formatted form fits, with the single-character fallback. -/
def _fit_formatted_chunk (formatter : Text → Text) (text : Text) (max_length : Nat) :
    Text × Text × Text :=
  if text.isEmpty then ([], [], [])
  else
    let best := fitGo formatter text max_length (pyLen text + 1) 1 (pyLen text) ([], [])
    if best.1.isEmpty then
      let raw := text.take 1
      (raw, formatter raw, text.drop 1)
    else (best.1, best.2, text.drop (pyLen best.1))

/-- The `while remaining:` loop of `_split_message_for_markdown`, with fuel;
each iteration consumes at least one character, so `text.length + 1` is
always enough. -/
def split_markdown_loop (conv : Text → Text) (max_length : Nat) : Nat → Text → List Text
  | 0, _ => []
  | Nat.succ fuel, remaining =>
      if remaining.isEmpty then []
      else
        let fit := _fit_formatted_chunk conv remaining max_length
        if fit.1.isEmpty then []
        else rstrip fit.1 :: split_markdown_loop conv max_length fuel (lstrip fit.2.2)

/-- `_split_message_for_markdown(text, max_length)`; the external converter
`convert_to_telegram_markdown` is the parameter `conv`. -/
def _split_message_for_markdown (conv : Text → Text) (text : Text) (max_length : Nat) : List Text :=
  if text.isEmpty then [] else split_markdown_loop conv max_length (pyLen text + 1) text

/-- One permanent message recorded by the model of the delivery adapter.
The recorded text is the raw text handed to the delivery helpers (before
the external markdown conversion); `combined` is the single message of
`_send_final_thinking` that carries a collapsed thinking block together
with the final answer fragment. -/
inductive Sent where
  | answer (text : Text)
  | thinking (text : Text)
  | combined (thinking answer : Text)
deriving DecidableEq, Repr

/-- One chunk of the model stream (`chunk.reasoning`, `chunk.content`,
`chunk.is_tool_use`, `chunk.tool_name`). -/
structure Chunk where
  reasoning : Text
  content : Text
  is_tool_use : Bool
  tool_name : String
deriving DecidableEq, Repr

/-- One iteration of the stream loop of `generate_and_stream_response`:
the received chunk plus whether the 0.5 s throttle gate was open
(`time.time() - state.last_update < 0.5` is real time, modelled as a free
boolean input). -/
structure Event where
  chunk : Chunk
  render : Bool
deriving DecidableEq, Repr

/-- `StreamingState` from `messages.py`.  The draft-surface-only fields
(`draft_id`, `last_update`, `lang`, `current_status_text`,
`thinking_msg_replaced`, `sent_message_ids`) are not tracked: they never
influence which permanent messages are sent nor the tracked fields.  The
extra field `delivered` records the permanent messages actually handed to
the delivery adapter (in order). -/
structure StreamingState where
  content : Text
  reasoning : Text
  sent_parts : List Text
  sent_thinking_parts : List Text
  thinking_finalized : Bool
  in_code_block : Bool
  pending_tool : Option String
  final_content_confirmed : Bool
  tool_counts : List (String × Nat)
  delivered : List Sent
deriving DecidableEq, Repr

def initState : StreamingState :=
  ⟨[], [], [], [], false, false, none, false, [], []⟩

/-- Strict sum of the lengths of a list of parts (forced like `pyLenAux`). -/
def sentLenAux : List Text → Nat → Nat
  | [], acc => acc
  | p :: rest, acc =>
      match acc + pyLen p with
      | 0 => sentLenAux rest 0
      | Nat.succ m => sentLenAux rest (Nat.succ m)

/-- `StreamingState.sent_content_len` (property). -/
def sent_content_len (s : StreamingState) : Nat := sentLenAux s.sent_parts 0

/-- `StreamingState.sent_thinking_len` (property). -/
def sent_thinking_len (s : StreamingState) : Nat := sentLenAux s.sent_thinking_parts 0

/-- `StreamingState.current_thinking` (property). -/
def current_thinking (s : StreamingState) : Text := s.reasoning.drop (sent_thinking_len s)

/-- `StreamingState.current_preview` (property):
`content[sent_content_len:] if content else ""`. -/
def current_preview (s : StreamingState) : Text :=
  if s.content.isEmpty then [] else s.content.drop (sent_content_len s)

/-- Python `dict.get(k, 0)` on the association list modelling `tool_counts`. -/
def dictGet (m : List (String × Nat)) (k : String) : Nat :=
  match m.find? (fun p => p.1 == k) with
  | some p => p.2
  | none => 0

/-- Python `d[k] = v` on the association list modelling `tool_counts`. -/
def dictSet (m : List (String × Nat)) (k : String) (v : Nat) : List (String × Nat) :=
  if (m.find? (fun p => p.1 == k)).isSome then m.map (fun p => if p.1 == k then (k, v) else p)
  else m ++ [(k, v)]

def fenceMarks : Text := "```".toList

def fenceOpen : Text := "```\n".toList

def noResponseText : Text := "No response generated.".toList

/-- `_handle_tool_use`: move the unsent answer into the reasoning trace and
the sent ledger (without delivering it), reset the confirmation latch, set
the pending tool and bump its counter.  The tool-status draft update is
preview-only. -/
def _handle_tool_use (chunk : Chunk) (s : StreamingState) : StreamingState :=
  let step_content := current_preview s
  let s :=
    if (pyStrip step_content).isEmpty then s
    else
      { s with reasoning := s.reasoning ++ '\n' :: (pyStrip step_content ++ ['\n']),
               sent_parts := s.sent_parts ++ [step_content] }
  { s with pending_tool := some chunk.tool_name,
           final_content_confirmed := false,
           tool_counts := dictSet s.tool_counts chunk.tool_name (dictGet s.tool_counts chunk.tool_name + 1) }

/-- `_handle_chunk`: prepend the `(Used <tool>)` marker when reasoning
resumes after a tool, append the deltas, then dispatch tool-use events. -/
def _handle_chunk (chunk : Chunk) (s : StreamingState) : StreamingState :=
  let s :=
    match s.pending_tool with
    | some t =>
        if chunk.reasoning.isEmpty then s
        else { s with reasoning := s.reasoning ++ ("(Used " ++ t ++ ")\n").toList, pending_tool := none }
    | none => s
  let s := { s with reasoning := s.reasoning ++ chunk.reasoning, content := s.content ++ chunk.content }
  if chunk.is_tool_use then _handle_tool_use chunk s else s

/-- `_handle_thinking_overflow`: when the expanded rendering of the unsent
thinking reaches `SAFE_MESSAGE_LENGTH - 100`, deliver a collapsed head as a
permanent message and record it in `sent_thinking_parts`; the re-rendering
of the remainder is a draft update. -/
def _handle_thinking_overflow (s : StreamingState) : StreamingState :=
  let ct := current_thinking s
  if ct.isEmpty then s
  else if SAFE_MESSAGE_LENGTH - 100 ≤ pyLen (format_thinking_expanded ct) then
    let pr := split_thinking ct (SAFE_MESSAGE_LENGTH - 200)
    if pr.1.isEmpty then s
    else
      { s with delivered := s.delivered ++ [Sent.thinking pr.1],
               sent_thinking_parts := s.sent_thinking_parts ++ [pr.1] }
  else s

/-- `_handle_content_overflow`: when the unsent answer reaches
`SAFE_MESSAGE_LENGTH - 100`, split it, reopen the code fence if needed,
finalize the thinking first when still open, deliver the head permanently
and append it (with the fence prefix, as the source does) to `sent_parts`. -/
def overflowSplitPoint (s : StreamingState) : Nat :=
  find_split_point (current_preview s) (SAFE_MESSAGE_LENGTH - 200)

/-- The `part` local of `_handle_content_overflow` before the code-fence
reopening prefix: `preview[:split_point].rstrip()`. -/
def overflowPart0 (s : StreamingState) : Text :=
  rstrip ((current_preview s).take (overflowSplitPoint s))

/-- The `part` local of `_handle_content_overflow` after the code-fence
reopening prefix is prepended when `in_code_block` is set. -/
def overflowPart (s : StreamingState) : Text :=
  if s.in_code_block then fenceOpen ++ overflowPart0 s else overflowPart0 s

def _handle_content_overflow (show_thinking : Bool) (s : StreamingState) : StreamingState :=
  if pyLen (current_preview s) < SAFE_MESSAGE_LENGTH - 100 then s
  else if (overflowPart0 s).isEmpty then s
  else
    let part := overflowPart s
    let ends_mid_block := countSubstr fenceMarks part % 2 == 1
    let s2 :=
      if show_thinking = true ∧ s.reasoning.isEmpty = false ∧ s.thinking_finalized = false then
        let remaining_thinking := current_thinking s
        let s1 :=
          if remaining_thinking.isEmpty then s
          else { s with delivered := s.delivered ++ [Sent.thinking remaining_thinking] }
        { s1 with thinking_finalized := true }
      else s
    { s2 with delivered := s2.delivered ++ [Sent.answer part],
              in_code_block := ends_mid_block,
              sent_parts := s2.sent_parts ++ [part] }

/-- `_update_content_draft`: only its write to the tracked state is
modelled — the one-way flip of `final_content_confirmed` when the trimmed
preview reaches `FINAL_CONTENT_MIN_LENGTH`.  Everything else in the source
function updates the draft surface (and the draft-only flag
`thinking_msg_replaced`). -/
def _update_content_draft (s : StreamingState) : StreamingState :=
  let preview := current_preview s
  if s.final_content_confirmed = false ∧ FINAL_CONTENT_MIN_LENGTH ≤ pyLen (pyStrip preview) then
    { s with final_content_confirmed := true }
  else s

/-- One iteration of the `async for` loop of `generate_and_stream_response`:
`_handle_chunk`, then — when the throttle gate is open — the gated
`_handle_thinking_overflow`, `_handle_content_overflow` and
`_update_content_draft`. -/
def streamStep (show_thinking : Bool) (s : StreamingState) (e : Event) : StreamingState :=
  let s := _handle_chunk e.chunk s
  if e.render then
    let s :=
      if show_thinking = true ∧ s.thinking_finalized = false ∧ s.pending_tool = none ∧
          s.final_content_confirmed = false then
        _handle_thinking_overflow s
      else s
    let s := _handle_content_overflow show_thinking s
    _update_content_draft s
  else s

/-- The whole stream loop over a list of events. -/
def runStream (show_thinking : Bool) (events : List Event) : StreamingState :=
  events.foldl (fun s e => streamStep show_thinking s e) initState

/-- `final_content = state.content or "No response generated."` -/
def finalContentOf (s : StreamingState) : Text :=
  if s.content.isEmpty then noResponseText else s.content

/-- `remaining = final_content[state.sent_content_len:] if
state.sent_content_len < len(final_content) else final_content`. -/
def remainingOf (s : StreamingState) : Text :=
  if sent_content_len s < pyLen (finalContentOf s) then
    (finalContentOf s).drop (sent_content_len s)
  else finalContentOf s

/-- `_send_final_thinking`: combine with the answer when the combination
fits `SAFE_MESSAGE_LENGTH`, otherwise send the collapsed thinking alone;
returns the (possibly consumed) remaining answer text. -/
def _send_final_thinking (conv : Text → Text) (s : StreamingState)
    (remaining remaining_thinking : Text) : StreamingState × Text :=
  if (pyStrip remaining).isEmpty = false then
    let combined := format_thinking_with_content conv remaining_thinking remaining
    if pyLen combined ≤ SAFE_MESSAGE_LENGTH then
      ({ s with delivered := s.delivered ++ [Sent.combined remaining_thinking remaining] }, [])
    else
      ({ s with delivered := s.delivered ++ [Sent.thinking remaining_thinking] }, remaining)
  else
    ({ s with delivered := s.delivered ++ [Sent.thinking remaining_thinking] }, remaining)

/-- `_send_final_content`: reopen the code fence if needed, split for
markdown, deliver every part permanently. -/
def _send_final_content (conv : Text → Text) (s : StreamingState) (remaining : Text) :
    StreamingState :=
  let remaining := if s.in_code_block then fenceOpen ++ remaining else remaining
  let parts := _split_message_for_markdown conv remaining SAFE_MESSAGE_LENGTH
  { s with delivered := s.delivered ++ parts.map Sent.answer }

/-- `_finalize_response`. -/
def _finalize_response (conv : Text → Text) (show_thinking : Bool) (s : StreamingState) :
    StreamingState :=
  let remaining := remainingOf s
  let remaining_thinking := if s.reasoning.isEmpty then [] else current_thinking s
  let sr :=
    if show_thinking = true ∧ remaining_thinking.isEmpty = false ∧ s.thinking_finalized = false then
      _send_final_thinking conv s remaining remaining_thinking
    else (s, remaining)
  if (pyStrip sr.2).isEmpty = false then _send_final_content conv sr.1 sr.2 else sr.1

/-- A whole generation: the stream loop followed by `_finalize_response`
(success path; on an upstream error the source overwrites `state.content`
with a fixed apology before the same finalization). -/
def runGeneration (conv : Text → Text) (show_thinking : Bool) (events : List Event) :
    StreamingState :=
  _finalize_response conv show_thinking (runStream show_thinking events)

/-- The answer components of a list of delivered messages: the text of each
`answer` message plus the answer component of each `combined` message. -/
def answerTexts : List Sent → List Text
  | [] => []
  | Sent.answer t :: rest => t :: answerTexts rest
  | Sent.combined _ a :: rest => a :: answerTexts rest
  | Sent.thinking _ :: rest => answerTexts rest

/-! ### Delivery attempts and the rate-limit retry of `_handle_content_overflow`

The `try/except TelegramRetryAfter` block around the permanent content send
(lines 730–738 of `messages.py`) is modelled explicitly: each call of the
Telegram send API is one `SendAttempt`, and the API's reaction to each
attempt is an oracle list of `SendOutcome`s consumed in order. -/

inductive ParseMode where
  | markdownV2
  | plain
deriving DecidableEq, Repr

structure SendAttempt where
  text : Text
  mode : ParseMode
deriving DecidableEq, Repr

inductive SendOutcome where
  | ok (message_id : Nat)
  | rateLimited (retry_after : Nat)
  | badRequestParse
deriving DecidableEq, Repr

inductive TgError where
  | retryAfter (seconds : Nat)
  | badRequest
deriving DecidableEq, Repr

def takeOutcome : List SendOutcome → SendOutcome × List SendOutcome
  | [] => (SendOutcome.ok 0, [])
  | o :: rest => (o, rest)

/-- `_send_with_markdown_fallback`: format (trimming with
`_fit_formatted_chunk` when too long), attempt a MarkdownV2 send; on a
parse rejection retry once with fully escaped text; a rate limit (from
either attempt) propagates to the caller. -/
def _send_with_markdown_fallback (conv : Text → Text) (outcomes : List SendOutcome)
    (text : Text) (convert : Bool) : List SendAttempt × List SendOutcome × Except TgError Nat :=
  let formatter := if convert then conv else id
  let formatted := formatter text
  let rf :=
    if SAFE_MESSAGE_LENGTH < pyLen formatted then
      let fit := _fit_formatted_chunk formatter text SAFE_MESSAGE_LENGTH
      (fit.1, fit.2.1)
    else (text, formatted)
  let o1 := takeOutcome outcomes
  let attempt1 : SendAttempt := ⟨rf.2, ParseMode.markdownV2⟩
  match o1.1 with
  | SendOutcome.ok mid => ([attempt1], o1.2, Except.ok mid)
  | SendOutcome.rateLimited n => ([attempt1], o1.2, Except.error (TgError.retryAfter n))
  | SendOutcome.badRequestParse =>
      let fit2 := _fit_formatted_chunk _escape_markdown_v2_full rf.1 SAFE_MESSAGE_LENGTH
      let o2 := takeOutcome o1.2
      let attempt2 : SendAttempt := ⟨fit2.2.1, ParseMode.markdownV2⟩
      match o2.1 with
      | SendOutcome.ok mid => ([attempt1, attempt2], o2.2, Except.ok mid)
      | SendOutcome.rateLimited n => ([attempt1, attempt2], o2.2, Except.error (TgError.retryAfter n))
      | SendOutcome.badRequestParse => ([attempt1, attempt2], o2.2, Except.error TgError.badRequest)

/-- The permanent content send of `_handle_content_overflow` with its
`except TelegramRetryAfter` handler: on a rate limit, sleep the returned
backoff (recorded in the middle component) and retry exactly once via
`bot.send_message(..., parse_mode=None)` — a plain-text send of the raw
part; any failure of that retry propagates. -/
def send_content_part (conv : Text → Text) (outcomes : List SendOutcome) (part : Text) :
    List SendAttempt × List Nat × Except TgError Unit :=
  match _send_with_markdown_fallback conv outcomes part true with
  | (attempts, _, Except.ok _) => (attempts, [], Except.ok ())
  | (attempts, rest, Except.error (TgError.retryAfter n)) =>
      let o := takeOutcome rest
      let retry_attempt : SendAttempt := ⟨part, ParseMode.plain⟩
      match o.1 with
      | SendOutcome.ok _ => (attempts ++ [retry_attempt], [n], Except.ok ())
      | SendOutcome.rateLimited m => (attempts ++ [retry_attempt], [n], Except.error (TgError.retryAfter m))
      | SendOutcome.badRequestParse => (attempts ++ [retry_attempt], [n], Except.error TgError.badRequest)
  | (attempts, _, Except.error TgError.badRequest) => (attempts, [], Except.error TgError.badRequest)

/-! ## Basic lemmas about the text helpers -/

theorem pyLenAux_eq (l : Text) : ∀ acc : Nat, pyLenAux l acc = acc + l.length := by
  induction l with
  | nil => intro acc; simp [pyLenAux]
  | cons c rest ih =>
      intro acc
      show pyLenAux (c :: rest) acc = acc + (rest.length + 1)
      simp only [pyLenAux]
      rw [ih]
      omega

theorem pyLen_eq (l : Text) : pyLen l = l.length := by
  simp [pyLen, pyLenAux_eq]

theorem sentLenAux_eq (ps : List Text) : ∀ acc : Nat,
    sentLenAux ps acc = acc + (ps.map List.length).sum := by
  induction ps with
  | nil => intro acc; simp [sentLenAux]
  | cons p rest ih =>
      intro acc
      cases h : acc + pyLen p with
      | zero =>
          simp only [sentLenAux, h, List.map_cons, List.sum_cons]
          rw [ih]
          rw [pyLen_eq] at h
          omega
      | succ m =>
          simp only [sentLenAux, h, List.map_cons, List.sum_cons]
          rw [ih]
          rw [pyLen_eq] at h
          omega

theorem sent_content_len_eq (s : StreamingState) :
    sent_content_len s = (s.sent_parts.map List.length).sum := by
  simp [sent_content_len, sentLenAux_eq]

theorem lstrip_suf (l : Text) : lstrip l <:+ l := by
  refine ⟨l.takeWhile isPyWs, ?_⟩
  simp [lstrip, List.takeWhile_append_dropWhile]

theorem rstrip_pre (l : Text) : rstrip l <+: l := by
  have h : l.reverse.dropWhile isPyWs <:+ l.reverse := by
    refine ⟨l.reverse.takeWhile isPyWs, ?_⟩
    simp [List.takeWhile_append_dropWhile]
  have := List.reverse_prefix.mpr h
  simpa [rstrip] using this

theorem lstrip_length_le (l : Text) : (lstrip l).length ≤ l.length :=
  (lstrip_suf l).length_le

theorem rstrip_length_le (l : Text) : (rstrip l).length ≤ l.length :=
  (rstrip_pre l).length_le

theorem count_dropWhile (p : Char → Bool) (l : Text) (c : Char) (hc : p c = false) :
    (l.dropWhile p).count c = l.count c := by
  conv_rhs => rw [← List.takeWhile_append_dropWhile (p := p) (l := l)]
  rw [List.count_append]
  have : (l.takeWhile p).count c = 0 := by
    rw [List.count_eq_zero]
    intro hmem
    have := List.mem_takeWhile_imp hmem
    simp [hc] at this
  omega

theorem count_lstrip (l : Text) (c : Char) (hc : isPyWs c = false) :
    (lstrip l).count c = l.count c :=
  count_dropWhile isPyWs l c hc

theorem count_rstrip (l : Text) (c : Char) (hc : isPyWs c = false) :
    (rstrip l).count c = l.count c := by
  simp only [rstrip]
  rw [List.count_reverse, count_dropWhile isPyWs l.reverse c hc, List.count_reverse]

theorem count_pyStrip (l : Text) (c : Char) (hc : isPyWs c = false) :
    (pyStrip l).count c = l.count c := by
  simp only [pyStrip]
  rw [count_lstrip _ _ hc, count_rstrip _ _ hc]

/-! ## Lemmas about `pyRfind` and `find_split_point` -/

theorem rfindFrom_some (sub s : Text) :
    ∀ i p, rfindFrom sub s i = some p → p ≤ i ∧ sub <+: s.drop p := by
  intro i
  induction i with
  | zero =>
      intro p h
      simp only [rfindFrom] at h
      by_cases hp : sub.isPrefixOf s
      · simp [hp] at h
        exact ⟨by omega, by simpa [← h] using List.isPrefixOf_iff_prefix.mp hp⟩
      · simp [hp] at h
  | succ i ih =>
      intro p h
      simp only [rfindFrom] at h
      by_cases hp : sub.isPrefixOf (s.drop (i + 1))
      · simp [hp] at h
        exact ⟨by omega, by simpa [← h] using List.isPrefixOf_iff_prefix.mp hp⟩
      · simp [hp] at h
        obtain ⟨h1, h2⟩ := ih p h
        exact ⟨by omega, h2⟩

theorem rfindFrom_last (sub s : Text) :
    ∀ i p, rfindFrom sub s i = some p → ∀ q, p < q → q ≤ i → ¬ sub <+: s.drop q := by
  intro i
  induction i with
  | zero =>
      intro p h q hpq hqi
      omega
  | succ i ih =>
      intro p h q hpq hqi
      simp only [rfindFrom] at h
      by_cases hp : sub.isPrefixOf (s.drop (i + 1))
      · simp [hp] at h
        omega
      · simp [hp] at h
        rcases Nat.lt_or_ge q (i + 1) with hlt | hge
        · exact ih p h q hpq (by omega)
        · have hq : q = i + 1 := by omega
          subst hq
          intro hc
          exact hp (List.isPrefixOf_iff_prefix.mpr hc)

theorem rfindFrom_none (sub s : Text) :
    ∀ i, rfindFrom sub s i = none → ∀ q, q ≤ i → ¬ sub <+: s.drop q := by
  intro i
  induction i with
  | zero =>
      intro h q hq
      have : q = 0 := by omega
      subst this
      simp only [rfindFrom] at h
      by_cases hp : sub.isPrefixOf s
      · simp [hp] at h
      · intro hc
        exact hp (List.isPrefixOf_iff_prefix.mpr (by simpa using hc))
  | succ i ih =>
      intro h q hq
      simp only [rfindFrom] at h
      by_cases hp : sub.isPrefixOf (s.drop (i + 1))
      · simp [hp] at h
      · simp [hp] at h
        rcases Nat.lt_or_ge q (i + 1) with hlt | hge
        · exact ih h q (by omega)
        · have hq : q = i + 1 := by omega
          subst hq
          intro hc
          exact hp (List.isPrefixOf_iff_prefix.mpr hc)

/-- An occurrence of non-empty `sub` at position `p` stays inside `s`. -/
theorem occurrence_le (sub s : Text) (p : Nat) (hsub : sub ≠ [])
    (h : sub <+: s.drop p) : p + sub.length ≤ s.length := by
  have h1 : sub.length ≤ (s.drop p).length := h.length_le
  have h2 : (s.drop p).length = s.length - p := List.length_drop ..
  have h3 : s.drop p ≠ [] := by
    intro hemp
    rw [hemp] at h
    exact hsub (List.prefix_nil.mp h)
  have h4 : p < s.length := by
    by_contra hcon
    exact h3 (List.drop_eq_nil_of_le (by omega))
  omega

theorem pyRfind_some (sub s : Text) (p : Nat) (h : pyRfind sub s = some p) :
    sub <+: s.drop p ∧ p + sub.length ≤ s.length := by
  simp only [pyRfind, pyLen_eq] at h
  by_cases hle : sub.length ≤ s.length
  · simp [hle] at h
    obtain ⟨h1, h2⟩ := rfindFrom_some sub s _ p h
    exact ⟨h2, by omega⟩
  · simp [hle] at h

theorem pyRfind_last (sub s : Text) (p : Nat) (hsub : sub ≠ [])
    (h : pyRfind sub s = some p) : ∀ q, p < q → ¬ sub <+: s.drop q := by
  intro q hpq hc
  simp only [pyRfind, pyLen_eq] at h
  by_cases hle : sub.length ≤ s.length
  · simp [hle] at h
    have hbound := occurrence_le sub s q hsub hc
    have hsubpos : 0 < sub.length := List.length_pos.mpr hsub
    exact rfindFrom_last sub s _ p h q hpq (by omega) hc
  · simp [hle] at h

theorem pyRfind_none (sub s : Text) (hsub : sub ≠ [])
    (h : pyRfind sub s = none) : ∀ q, ¬ sub <+: s.drop q := by
  intro q hc
  have hbound := occurrence_le sub s q hsub hc
  have hsubpos : 0 < sub.length := List.length_pos.mpr hsub
  simp only [pyRfind, pyLen_eq] at h
  by_cases hle : sub.length ≤ s.length
  · simp [hle] at h
    exact rfindFrom_none sub s _ h q (by omega) hc
  · omega

/-- A separator occurrence accepted by `find_split_point`: `sep` occurs at
`p` in the scanned window, it is the last occurrence, and it lies beyond
`max_length / 3` (the claim's boundary-acceptance test). -/
def splitBoundaryOk (chunk : Text) (max_length : Nat) (sep : Text) (p : Nat) : Prop :=
  sep <+: chunk.drop p ∧ max_length / 3 < p ∧ ∀ q, p < q → ¬ sep <+: chunk.drop q

/-- No occurrence of `sep` in the window qualifies (every occurrence lies at
or below `max_length / 3`). -/
def noSplitBoundary (chunk : Text) (max_length : Nat) (sep : Text) : Prop :=
  ∀ p, sep <+: chunk.drop p → p ≤ max_length / 3

/-- The behaviour the claim describes for the backward scan, separator by
separator in priority order (written from the specification's words, to be
compared with `find_split_point`). -/
def GoSpec (chunk : Text) (max_length : Nat) : List Text → Nat → Prop
  | [], r => r = max_length
  | sep :: rest, r =>
      (∃ p, splitBoundaryOk chunk max_length sep p ∧ r = p + sep.length) ∨
      (noSplitBoundary chunk max_length sep ∧ GoSpec chunk max_length rest r)

theorem findSplitGo_spec (chunk : Text) (max_length : Nat) :
    ∀ L : List Text, (∀ sep ∈ L, sep ≠ []) →
      GoSpec chunk max_length L (findSplitGo chunk max_length L) := by
  intro L
  induction L with
  | nil => intro _; rfl
  | cons sep rest ih =>
      intro hne
      have hsep : sep ≠ [] := hne sep (by simp)
      have hrest : ∀ s ∈ rest, s ≠ [] := fun s hs => hne s (by simp [hs])
      simp only [findSplitGo]
      cases h : pyRfind sep chunk with
      | none =>
          refine Or.inr ⟨?_, ih hrest⟩
          intro p hp
          exact absurd hp (pyRfind_none sep chunk hsep h p)
      | some pos =>
          by_cases hq : max_length / 3 < pos
          · simp only [hq, if_true]
            exact Or.inl ⟨pos, ⟨(pyRfind_some sep chunk pos h).1, hq,
              pyRfind_last sep chunk pos hsep h⟩, rfl⟩
          · simp only [hq, if_false]
            refine Or.inr ⟨?_, ih hrest⟩
            intro p hp
            rcases Nat.lt_or_ge pos p with hlt | hge
            · exact absurd hp (pyRfind_last sep chunk pos hsep h p hlt)
            · omega

theorem goSpec_cases (chunk : Text) (max_length : Nat) :
    ∀ (L : List Text) (r : Nat), GoSpec chunk max_length L r →
      r = max_length ∨ ∃ sep ∈ L, ∃ p, sep <+: chunk.drop p ∧ r = p + sep.length := by
  intro L
  induction L with
  | nil => intro r h; exact Or.inl h
  | cons sep rest ih =>
      intro r h
      rcases h with ⟨p, hok, hr⟩ | ⟨_, hgo⟩
      · exact Or.inr ⟨sep, by simp, p, hok.1, hr⟩
      · rcases ih r hgo with h1 | ⟨s, hs, p, hp, hr⟩
        · exact Or.inl h1
        · exact Or.inr ⟨s, by simp [hs], p, hp, hr⟩

theorem splitSeps_ne_nil : ∀ sep ∈ splitSeps, sep ≠ [] := by
  decide

theorem find_split_point_goSpec (text : Text) (max_length : Nat) :
    GoSpec (text.take max_length) max_length splitSeps (find_split_point text max_length) :=
  findSplitGo_spec (text.take max_length) max_length splitSeps splitSeps_ne_nil

theorem find_split_point_le (text : Text) (max_length : Nat) :
    find_split_point text max_length ≤ max_length := by
  rcases goSpec_cases _ _ _ _ (find_split_point_goSpec text max_length) with h | ⟨sep, hsep, p, hp, hr⟩
  · omega
  · have hne : sep ≠ [] := splitSeps_ne_nil sep hsep
    have := occurrence_le sep (text.take max_length) p hne hp
    have hlen : (text.take max_length).length ≤ max_length := by
      rw [List.length_take]; omega
    omega

theorem find_split_point_pos (text : Text) (max_length : Nat) (h : 1 ≤ max_length) :
    1 ≤ find_split_point text max_length := by
  rcases goSpec_cases _ _ _ _ (find_split_point_goSpec text max_length) with hr | ⟨sep, hsep, p, hp, hr⟩
  · omega
  · have hne : sep ≠ [] := splitSeps_ne_nil sep hsep
    have : 0 < sep.length := List.length_pos.mpr hne
    omega

/-- C8: `find_split_point(text, max_length)` scans `text[0:max_length]`
backward for, in priority order, a double newline, a single newline, `". "`,
then `" "`; it accepts a boundary only when the separator's position exceeds
`max_length / 3`, in which case it returns the index just past that
separator — so the result is at most `max_length` — and it returns
`max_length` (hard cut) when no separator qualifies.  (`GoSpec` writes this
behaviour out separator by separator; determinism and freedom from side
effects hold because the embedding is a pure function of its arguments.) -/
theorem c8_find_split_point_spec : ∀ (text : Text) (max_length : Nat),
    GoSpec (text.take max_length) max_length splitSeps (find_split_point text max_length) ∧
      find_split_point text max_length ≤ max_length :=
  fun text max_length => ⟨find_split_point_goSpec text max_length, find_split_point_le text max_length⟩

/-! ## Lemmas about `split_message` -/

theorem split_message_loop_suff (max_length : Nat) (h1 : 1 ≤ max_length) :
    ∀ fuel remaining, remaining.length < fuel →
      ∃ parts, split_message_loop max_length fuel remaining = some parts ∧
        ∀ p ∈ parts, p.length ≤ max_length := by
  intro fuel
  induction fuel with
  | zero => intro remaining h; omega
  | succ fuel ih =>
      intro remaining hlt
      by_cases hemp : remaining.isEmpty
      · exact ⟨[], by simp [split_message_loop, hemp], by simp⟩
      · by_cases hfits : pyLen remaining ≤ max_length
        · refine ⟨[remaining], by simp [split_message_loop, hemp, hfits], ?_⟩
          intro p hp
          rw [List.mem_singleton] at hp
          subst hp
          rw [pyLen_eq] at hfits
          exact hfits
        · have hne : remaining ≠ [] := by
            intro hc; rw [hc] at hemp; simp at hemp
          have hpos : 1 ≤ remaining.length := by
            rcases remaining with _ | ⟨c, r⟩
            · exact absurd rfl hne
            · simp
          have hsp : 1 ≤ find_split_point remaining max_length :=
            find_split_point_pos remaining max_length h1
          have hshort :
              (lstrip (remaining.drop (find_split_point remaining max_length))).length < fuel := by
            have h2 := lstrip_length_le (remaining.drop (find_split_point remaining max_length))
            have h3 : (remaining.drop (find_split_point remaining max_length)).length =
                remaining.length - find_split_point remaining max_length := List.length_drop ..
            omega
          obtain ⟨parts, hparts, hbound⟩ :=
            ih (lstrip (remaining.drop (find_split_point remaining max_length))) hshort
          refine ⟨rstrip (remaining.take (find_split_point remaining max_length)) :: parts, ?_, ?_⟩
          · simp only [split_message_loop, hemp, hfits, if_false, Bool.false_eq_true, hparts]
          · intro p hp
            rcases List.mem_cons.mp hp with hh | ht
            · subst hh
              have h4 := rstrip_length_le (remaining.take (find_split_point remaining max_length))
              have h5 : (remaining.take (find_split_point remaining max_length)).length =
                  min (find_split_point remaining max_length) remaining.length := List.length_take ..
              have h6 := find_split_point_le remaining max_length
              omega
            · exact hbound p ht

theorem split_message_loop_zero_stuck : ∀ fuel, split_message_loop 0 fuel ['a', 'a'] = none := by
  intro fuel
  induction fuel with
  | zero => rfl
  | succ fuel ih =>
      have hsp : find_split_point ['a', 'a'] 0 = 0 := by decide
      have hls : lstrip (List.drop 0 ['a', 'a']) = ['a', 'a'] := by decide
      simp only [split_message_loop, hsp, hls, ih]
      rfl

/-- C10: for every `text` and every `max_length ≥ 1`, `split_message`
terminates (the fuelled loop returns a value: each iteration strictly
shortens the remainder because `find_split_point` returns at least `1`) and
every returned part has length at most `max_length`; and the precondition
is necessary — at `max_length = 0` the loop never terminates, already on
the input `"aa"`. -/
theorem c10_split_message_terminates : ∀ (text : Text) (max_length : Nat), 1 ≤ max_length →
    (∃ parts, split_message text max_length = some parts ∧
      ∀ p ∈ parts, p.length ≤ max_length) ∧
    (∀ fuel, split_message_loop 0 fuel ['a', 'a'] = none) := by
  intro text max_length h1
  refine ⟨?_, split_message_loop_zero_stuck⟩
  by_cases hfits : pyLen text ≤ max_length
  · refine ⟨[text], by simp [split_message, hfits], ?_⟩
    intro p hp
    rw [List.mem_singleton] at hp
    subst hp
    rw [pyLen_eq] at hfits
    exact hfits
  · obtain ⟨parts, hparts, hbound⟩ :=
      split_message_loop_suff max_length h1 (pyLen text + 1) text (by rw [pyLen_eq]; omega)
    exact ⟨parts, by simp [split_message, hfits, hparts], hbound⟩

/-- Witness for C10 at `text = "aaaa bbbb cccc"`, `max_length = 5`. -/
theorem c10_witness :
    (1 : Nat) ≤ 5 ∧
      ((∃ parts, split_message ("aaaa bbbb cccc".toList) 5 = some parts ∧
          ∀ p ∈ parts, p.length ≤ 5) ∧
        (∀ fuel, split_message_loop 0 fuel ['a', 'a'] = none)) :=
  ⟨by decide, c10_split_message_terminates ("aaaa bbbb cccc".toList) 5 (by decide)⟩

/-! ## Lemmas about `_fit_formatted_chunk` and `_split_message_for_markdown` -/

/-- Invariant of the binary-search accumulator: empty, or a prefix of the
text whose formatted form is recorded and fits. -/
def FitInv (formatter : Text → Text) (text : Text) (max_length : Nat) (acc : Text × Text) : Prop :=
  acc.1 = [] ∨ (acc.1 <+: text ∧ acc.2 = formatter acc.1 ∧ (formatter acc.1).length ≤ max_length)

theorem fitGo_inv (formatter : Text → Text) (text : Text) (max_length : Nat) :
    ∀ (fuel low high : Nat) (acc : Text × Text), FitInv formatter text max_length acc →
      FitInv formatter text max_length (fitGo formatter text max_length fuel low high acc) := by
  intro fuel
  induction fuel with
  | zero => intro low high acc h; simpa [fitGo] using h
  | succ fuel ih =>
      intro low high acc h
      simp only [fitGo]
      by_cases hlh : low ≤ high
      · simp only [hlh, if_true]
        by_cases hfit : pyLen (formatter (text.take ((low + high) / 2))) ≤ max_length
        · simp only [hfit, if_true]
          refine ih _ _ _ (Or.inr ⟨List.take_prefix .., rfl, ?_⟩)
          rw [pyLen_eq] at hfit
          exact hfit
        · simp only [hfit, if_false]
          exact ih _ _ _ h
      · simpa [hlh] using h

theorem fit_concat (formatter : Text → Text) (text : Text) (max_length : Nat) :
    (_fit_formatted_chunk formatter text max_length).1 ++
      (_fit_formatted_chunk formatter text max_length).2.2 = text := by
  by_cases hemp : text.isEmpty
  · have : text = [] := by simpa [List.isEmpty_iff] using hemp
    subst this
    simp [_fit_formatted_chunk]
  · simp only [_fit_formatted_chunk, hemp, if_false, Bool.false_eq_true]
    set best := fitGo formatter text max_length (pyLen text + 1) 1 (pyLen text) ([], []) with hbest
    by_cases hb : best.1.isEmpty
    · simp only [hb, if_true]
      exact List.take_append_drop ..
    · simp only [hb, if_false, Bool.false_eq_true]
      have hinv := fitGo_inv formatter text max_length (pyLen text + 1) 1 (pyLen text) ([], [])
        (Or.inl rfl)
      rw [← hbest] at hinv
      rcases hinv with h1 | ⟨hpre, _, _⟩
      · rw [h1] at hb; simp at hb
      · obtain ⟨t, ht⟩ := hpre
        rw [pyLen_eq, ← ht, List.drop_left]

theorem fit_props (formatter : Text → Text) (text : Text) (max_length : Nat) (hne : text ≠ []) :
    (_fit_formatted_chunk formatter text max_length).2.1 =
        formatter (_fit_formatted_chunk formatter text max_length).1 ∧
      (_fit_formatted_chunk formatter text max_length).1 ≠ [] ∧
      ((_fit_formatted_chunk formatter text max_length).2.1.length ≤ max_length ∨
        (_fit_formatted_chunk formatter text max_length).1 = text.take 1) := by
  have hemp : text.isEmpty = false := by
    rcases text with _ | ⟨c, r⟩
    · exact absurd rfl hne
    · rfl
  simp only [_fit_formatted_chunk, hemp, if_false, Bool.false_eq_true]
  set best := fitGo formatter text max_length (pyLen text + 1) 1 (pyLen text) ([], []) with hbest
  by_cases hb : best.1.isEmpty
  · simp only [hb, if_true]
    refine ⟨by simp, ?_, Or.inr (by simp)⟩
    rcases text with _ | ⟨c, r⟩
    · exact absurd rfl hne
    · simp
  · simp only [hb, if_false, Bool.false_eq_true]
    have hinv := fitGo_inv formatter text max_length (pyLen text + 1) 1 (pyLen text) ([], [])
      (Or.inl rfl)
    rw [← hbest] at hinv
    rcases hinv with h1 | ⟨_, hfmt, hlen⟩
    · rw [h1] at hb; simp at hb
    · refine ⟨hfmt, ?_, Or.inl (by rw [hfmt]; exact hlen)⟩
      intro hc
      rw [hc] at hb
      simp at hb

theorem split_markdown_loop_sublist (conv : Text → Text) (max_length : Nat) :
    ∀ (fuel : Nat) (remaining : Text),
      (split_markdown_loop conv max_length fuel remaining).flatten.Sublist remaining := by
  intro fuel
  induction fuel with
  | zero => intro remaining; simp [split_markdown_loop]
  | succ fuel ih =>
      intro remaining
      by_cases hemp : remaining.isEmpty
      · simp [split_markdown_loop, hemp]
      · simp only [split_markdown_loop, hemp, if_false, Bool.false_eq_true]
        by_cases hraw : (_fit_formatted_chunk conv remaining max_length).1.isEmpty
        · simp [hraw]
        · simp only [hraw, if_false, Bool.false_eq_true, List.flatten_cons]
          have h1 : (rstrip (_fit_formatted_chunk conv remaining max_length).1).Sublist
              (_fit_formatted_chunk conv remaining max_length).1 :=
            (rstrip_pre _).sublist
          have h2 : (split_markdown_loop conv max_length fuel
                (lstrip (_fit_formatted_chunk conv remaining max_length).2.2)).flatten.Sublist
              (_fit_formatted_chunk conv remaining max_length).2.2 :=
            (ih _).trans (lstrip_suf _).sublist
          have h3 := List.Sublist.append h1 h2
          rw [fit_concat conv remaining max_length] at h3
          exact h3

theorem split_markdown_loop_count (conv : Text → Text) (max_length : Nat) (c : Char)
    (hc : isPyWs c = false) :
    ∀ (fuel : Nat) (remaining : Text), remaining.length < fuel →
      (split_markdown_loop conv max_length fuel remaining).flatten.count c = remaining.count c := by
  intro fuel
  induction fuel with
  | zero => intro remaining h; omega
  | succ fuel ih =>
      intro remaining hlt
      by_cases hemp : remaining.isEmpty
      · have : remaining = [] := by simpa [List.isEmpty_iff] using hemp
        subst this
        simp [split_markdown_loop]
      · have hne : remaining ≠ [] := by
          intro h; rw [h] at hemp; simp at hemp
        obtain ⟨_, hrawne, _⟩ := fit_props conv remaining max_length hne
        have hraw : (_fit_formatted_chunk conv remaining max_length).1.isEmpty = false := by
          rcases h : (_fit_formatted_chunk conv remaining max_length).1 with _ | ⟨x, xs⟩
          · exact absurd h hrawne
          · rfl
        simp only [split_markdown_loop, hemp, hraw, if_false, Bool.false_eq_true,
          List.flatten_cons, List.count_append]
        have hconcat := fit_concat conv remaining max_length
        have hrawpos : 0 < (_fit_formatted_chunk conv remaining max_length).1.length :=
          List.length_pos.mpr hrawne
        have hrest : (_fit_formatted_chunk conv remaining max_length).2.2.length <
            remaining.length := by
          have := congrArg List.length hconcat
          rw [List.length_append] at this
          omega
        have hlen2 : (lstrip (_fit_formatted_chunk conv remaining max_length).2.2).length < fuel := by
          have := lstrip_length_le (_fit_formatted_chunk conv remaining max_length).2.2
          omega
        rw [ih _ hlen2, count_rstrip _ _ hc, count_lstrip _ _ hc]
        have := congrArg (List.count c) hconcat
        rw [List.count_append] at this
        omega

/-- C9 (counterexample): applied as in `_split_message_for_markdown`,
repeated fitting DOES lose characters of the input — the boundary
whitespace stripped at each chunk: with the identity formatter and input
`"ab "`, the parts concatenate to `"ab"`, not `"ab "`. -/
theorem c9_counterexample :
    (_split_message_for_markdown id ("ab ".toList) 10).flatten ≠ "ab ".toList := by
  decide

/-- C9 (amended): `_fit_formatted_chunk(text, max_length, f)` returns
`(raw, formatted, remaining)` with `raw ++ remaining = text` always, and —
for non-empty `text` (on empty text the source returns `("", "", "")`
without applying `f`) — `formatted = f raw`, `raw` non-empty, and
`len formatted ≤ max_length` except in the single-character fallback case.
Repeated application as in `_split_message_for_markdown` loses only the
whitespace trimmed at each chunk boundary: the concatenation of the parts
is a sublist of the input that preserves the count of every non-whitespace
character. -/
theorem c9_fit_chunk_amended : ∀ (f : Text → Text) (text : Text) (max_length : Nat),
    (_fit_formatted_chunk f text max_length).1 ++
        (_fit_formatted_chunk f text max_length).2.2 = text ∧
      (text ≠ [] →
        (_fit_formatted_chunk f text max_length).2.1 =
            f (_fit_formatted_chunk f text max_length).1 ∧
          (_fit_formatted_chunk f text max_length).1 ≠ [] ∧
          ((_fit_formatted_chunk f text max_length).2.1.length ≤ max_length ∨
            (_fit_formatted_chunk f text max_length).1 = text.take 1)) ∧
      (_split_message_for_markdown f text max_length).flatten.Sublist text ∧
      (∀ c : Char, isPyWs c = false →
        (_split_message_for_markdown f text max_length).flatten.count c = text.count c) := by
  intro f text max_length
  refine ⟨fit_concat f text max_length, fit_props f text max_length, ?_, ?_⟩
  · by_cases hemp : text.isEmpty
    · have : text = [] := by simpa [List.isEmpty_iff] using hemp
      subst this
      simp [_split_message_for_markdown]
    · simp only [_split_message_for_markdown, hemp, if_false, Bool.false_eq_true]
      exact split_markdown_loop_sublist f max_length _ text
  · intro c hc
    by_cases hemp : text.isEmpty
    · have : text = [] := by simpa [List.isEmpty_iff] using hemp
      subst this
      simp [_split_message_for_markdown]
    · simp only [_split_message_for_markdown, hemp, if_false, Bool.false_eq_true]
      exact split_markdown_loop_count f max_length c hc _ text (by rw [pyLen_eq]; omega)

/-- Witness for C9 (amended) at `f = id`, `text = "abc"`, `max_length = 2`,
`c = 'a'`, discharging the non-emptiness and non-whitespace hypotheses. -/
theorem c9_witness :
    ("abc".toList : Text) ≠ [] ∧ isPyWs 'a' = false ∧
      ((_fit_formatted_chunk id ("abc".toList) 2).2.1 =
          id (_fit_formatted_chunk id ("abc".toList) 2).1 ∧
        (_fit_formatted_chunk id ("abc".toList) 2).1 ≠ [] ∧
        ((_fit_formatted_chunk id ("abc".toList) 2).2.1.length ≤ 2 ∨
          (_fit_formatted_chunk id ("abc".toList) 2).1 = ("abc".toList).take 1)) ∧
      (_split_message_for_markdown id ("abc".toList) 2).flatten.count 'a' =
        ("abc".toList).count 'a' :=
  ⟨by decide, by decide,
    (c9_fit_chunk_amended id ("abc".toList) 2).2.1 (by decide),
    (c9_fit_chunk_amended id ("abc".toList) 2).2.2.2 'a' (by decide)⟩

/-! ## Frame lemmas for the streaming state machine -/

theorem update_draft_frame (s : StreamingState) :
    (_update_content_draft s).content = s.content ∧
      (_update_content_draft s).reasoning = s.reasoning ∧
      (_update_content_draft s).sent_parts = s.sent_parts ∧
      (_update_content_draft s).sent_thinking_parts = s.sent_thinking_parts ∧
      (_update_content_draft s).thinking_finalized = s.thinking_finalized ∧
      (_update_content_draft s).in_code_block = s.in_code_block ∧
      (_update_content_draft s).pending_tool = s.pending_tool ∧
      (_update_content_draft s).delivered = s.delivered := by
  simp only [_update_content_draft]
  split_ifs <;> simp

theorem update_draft_confirmed_true (s : StreamingState)
    (h : s.final_content_confirmed = true) :
    (_update_content_draft s).final_content_confirmed = true := by
  simp only [_update_content_draft]
  split_ifs with hcond
  · rfl
  · exact h

theorem update_draft_confirmed_small (s : StreamingState)
    (h : pyLen (pyStrip (current_preview s)) < FINAL_CONTENT_MIN_LENGTH) :
    (_update_content_draft s).final_content_confirmed = s.final_content_confirmed := by
  simp only [_update_content_draft]
  split_ifs with hcond
  · omega
  · rfl

theorem thinking_overflow_frame (s : StreamingState) :
    (_handle_thinking_overflow s).content = s.content ∧
      (_handle_thinking_overflow s).reasoning = s.reasoning ∧
      (_handle_thinking_overflow s).sent_parts = s.sent_parts ∧
      (_handle_thinking_overflow s).thinking_finalized = s.thinking_finalized ∧
      (_handle_thinking_overflow s).in_code_block = s.in_code_block ∧
      (_handle_thinking_overflow s).pending_tool = s.pending_tool ∧
      (_handle_thinking_overflow s).final_content_confirmed = s.final_content_confirmed ∧
      (∃ ts : List Text, (_handle_thinking_overflow s).delivered = s.delivered ++ ts.map Sent.thinking) := by
  simp only [_handle_thinking_overflow]
  split_ifs with h1 h2 h3
  · exact ⟨rfl, rfl, rfl, rfl, rfl, rfl, rfl, ⟨[], by simp⟩⟩
  · exact ⟨rfl, rfl, rfl, rfl, rfl, rfl, rfl, ⟨[], by simp⟩⟩
  · exact ⟨rfl, rfl, rfl, rfl, rfl, rfl, rfl,
      ⟨[(split_thinking (current_thinking s) (SAFE_MESSAGE_LENGTH - 200)).1], by simp⟩⟩
  · exact ⟨rfl, rfl, rfl, rfl, rfl, rfl, rfl, ⟨[], by simp⟩⟩

theorem content_overflow_skip (show_thinking : Bool) (s : StreamingState)
    (h : pyLen (current_preview s) < SAFE_MESSAGE_LENGTH - 100 ∨ overflowPart0 s = []) :
    _handle_content_overflow show_thinking s = s := by
  simp only [_handle_content_overflow]
  rcases h with h | h
  · simp [h]
  · have hemp : (overflowPart0 s).isEmpty = true := by simp [h]
    simp [hemp]

theorem content_overflow_fired (show_thinking : Bool) (s : StreamingState)
    (h1 : SAFE_MESSAGE_LENGTH - 100 ≤ pyLen (current_preview s))
    (h2 : overflowPart0 s ≠ []) :
    (_handle_content_overflow show_thinking s).content = s.content ∧
      (_handle_content_overflow show_thinking s).reasoning = s.reasoning ∧
      (_handle_content_overflow show_thinking s).sent_parts = s.sent_parts ++ [overflowPart s] ∧
      (_handle_content_overflow show_thinking s).in_code_block =
        (countSubstr fenceMarks (overflowPart s) % 2 == 1) ∧
      (_handle_content_overflow show_thinking s).final_content_confirmed =
        s.final_content_confirmed ∧
      (_handle_content_overflow show_thinking s).pending_tool = s.pending_tool ∧
      ((_handle_content_overflow show_thinking s).thinking_finalized = s.thinking_finalized ∨
        (_handle_content_overflow show_thinking s).thinking_finalized = true) ∧
      (∃ ts : List Text,
        (_handle_content_overflow show_thinking s).delivered =
          s.delivered ++ ts.map Sent.thinking ++ [Sent.answer (overflowPart s)]) := by
  have hlt : ¬ pyLen (current_preview s) < SAFE_MESSAGE_LENGTH - 100 := by omega
  have hemp : (overflowPart0 s).isEmpty = false := by
    rcases h : overflowPart0 s with _ | ⟨x, xs⟩
    · exact absurd h h2
    · rfl
  simp only [_handle_content_overflow, hlt, hemp, if_false, Bool.false_eq_true]
  split_ifs with hth hrt
  · exact ⟨by trivial, by trivial, by trivial, by trivial, by trivial, by trivial,
      Or.inr (by trivial), ⟨[], by simp⟩⟩
  · exact ⟨by trivial, by trivial, by trivial, by trivial, by trivial, by trivial,
      Or.inr (by trivial), ⟨[current_thinking s], by simp⟩⟩
  · exact ⟨by trivial, by trivial, by trivial, by trivial, by trivial, by trivial,
      Or.inl (by trivial), ⟨[], by simp⟩⟩

theorem content_overflow_cases (show_thinking : Bool) (s : StreamingState) :
    _handle_content_overflow show_thinking s = s ∨
      (SAFE_MESSAGE_LENGTH - 100 ≤ pyLen (current_preview s) ∧ overflowPart0 s ≠ []) := by
  by_cases h1 : pyLen (current_preview s) < SAFE_MESSAGE_LENGTH - 100
  · exact Or.inl (content_overflow_skip show_thinking s (Or.inl h1))
  · by_cases h2 : overflowPart0 s = []
    · exact Or.inl (content_overflow_skip show_thinking s (Or.inr h2))
    · exact Or.inr ⟨by omega, h2⟩

theorem tool_use_frame (chunk : Chunk) (s : StreamingState) :
    (_handle_tool_use chunk s).content = s.content ∧
      (_handle_tool_use chunk s).thinking_finalized = s.thinking_finalized ∧
      (_handle_tool_use chunk s).in_code_block = s.in_code_block ∧
      (_handle_tool_use chunk s).sent_thinking_parts = s.sent_thinking_parts ∧
      (_handle_tool_use chunk s).final_content_confirmed = false ∧
      (_handle_tool_use chunk s).pending_tool = some chunk.tool_name ∧
      (_handle_tool_use chunk s).delivered = s.delivered ∧
      ((_handle_tool_use chunk s).sent_parts = s.sent_parts ∨
        (_handle_tool_use chunk s).sent_parts = s.sent_parts ++ [current_preview s]) := by
  simp only [_handle_tool_use]
  split_ifs with h
  · exact ⟨by trivial, by trivial, by trivial, by trivial, by trivial, by trivial,
      by trivial, Or.inl (by trivial)⟩
  · exact ⟨by trivial, by trivial, by trivial, by trivial, by trivial, by trivial,
      by trivial, Or.inr (by trivial)⟩

theorem tool_use_moves (chunk : Chunk) (s : StreamingState)
    (h : pyStrip (current_preview s) ≠ []) :
    (_handle_tool_use chunk s).reasoning =
        s.reasoning ++ '\n' :: (pyStrip (current_preview s) ++ ['\n']) ∧
      (_handle_tool_use chunk s).sent_parts = s.sent_parts ++ [current_preview s] ∧
      (_handle_tool_use chunk s).delivered = s.delivered := by
  have hemp : (pyStrip (current_preview s)).isEmpty = false := by
    rcases hh : pyStrip (current_preview s) with _ | ⟨x, xs⟩
    · exact absurd hh h
    · rfl
  simp only [_handle_tool_use, hemp, if_false, Bool.false_eq_true]
  exact ⟨by trivial, by trivial, by trivial⟩

theorem handle_chunk_frame (chunk : Chunk) (s : StreamingState) :
    (_handle_chunk chunk s).content = s.content ++ chunk.content ∧
      (_handle_chunk chunk s).thinking_finalized = s.thinking_finalized ∧
      (_handle_chunk chunk s).in_code_block = s.in_code_block ∧
      (_handle_chunk chunk s).sent_thinking_parts = s.sent_thinking_parts ∧
      (_handle_chunk chunk s).delivered = s.delivered ∧
      (chunk.is_tool_use = false →
        (_handle_chunk chunk s).sent_parts = s.sent_parts ∧
        (_handle_chunk chunk s).final_content_confirmed = s.final_content_confirmed) ∧
      (chunk.is_tool_use = true →
        (_handle_chunk chunk s).final_content_confirmed = false) ∧
      ((_handle_chunk chunk s).sent_parts = s.sent_parts ∨
        ∃ p : Text, (_handle_chunk chunk s).sent_parts = s.sent_parts ++ [p]) := by
  simp only [_handle_chunk]
  cases hpt : s.pending_tool with
  | none =>
      by_cases htool : chunk.is_tool_use
      · simp only [htool, if_true]
        obtain ⟨hc, htf, hicb, hstp, hconf, hpend, hdel, hsp⟩ := tool_use_frame chunk _
        refine ⟨by simpa using hc, by simpa using htf, by simpa using hicb,
          by simpa using hstp, by simpa using hdel, by simp [htool], fun _ => hconf, ?_⟩
        rcases hsp with h | h
        · exact Or.inl (by simpa using h)
        · exact Or.inr ⟨_, by simpa using h⟩
      · simp only [htool, if_false, Bool.false_eq_true]
        exact ⟨by trivial, by trivial, by trivial, by trivial, by trivial,
          fun _ => ⟨by trivial, by trivial⟩, by simp [htool], Or.inl (by trivial)⟩
  | some t =>
      by_cases hre : chunk.reasoning.isEmpty
      · simp only [hre, if_true]
        by_cases htool : chunk.is_tool_use
        · simp only [htool, if_true]
          obtain ⟨hc, htf, hicb, hstp, hconf, hpend, hdel, hsp⟩ := tool_use_frame chunk _
          refine ⟨by simpa using hc, by simpa using htf, by simpa using hicb,
            by simpa using hstp, by simpa using hdel, by simp [htool], fun _ => hconf, ?_⟩
          rcases hsp with h | h
          · exact Or.inl (by simpa using h)
          · exact Or.inr ⟨_, by simpa using h⟩
        · simp only [htool, if_false, Bool.false_eq_true]
          exact ⟨by trivial, by trivial, by trivial, by trivial, by trivial,
          fun _ => ⟨by trivial, by trivial⟩, by simp [htool], Or.inl (by trivial)⟩
      · simp only [hre, if_false, Bool.false_eq_true]
        by_cases htool : chunk.is_tool_use
        · simp only [htool, if_true]
          obtain ⟨hc, htf, hicb, hstp, hconf, hpend, hdel, hsp⟩ := tool_use_frame chunk _
          refine ⟨by simpa using hc, by simpa using htf, by simpa using hicb,
            by simpa using hstp, by simpa using hdel, by simp [htool], fun _ => hconf, ?_⟩
          rcases hsp with h | h
          · exact Or.inl (by simpa using h)
          · exact Or.inr ⟨_, by simpa using h⟩
        · simp only [htool, if_false, Bool.false_eq_true]
          exact ⟨by trivial, by trivial, by trivial, by trivial, by trivial,
          fun _ => ⟨by trivial, by trivial⟩, by simp [htool], Or.inl (by trivial)⟩

/-! ## Whitespace-only previews -/

theorem dropWhile_nil_of_all (p : Char → Bool) (l : Text) (h : ∀ x ∈ l, p x = true) :
    l.dropWhile p = [] := by
  induction l with
  | nil => rfl
  | cons c rest ih =>
      rw [List.dropWhile_cons]
      simp only [h c (by simp), if_true]
      exact ih (fun x hx => h x (by simp [hx]))

theorem all_ws_of_pyStrip_nil (l : Text) (h : pyStrip l = []) : ∀ x ∈ l, isPyWs x = true := by
  intro x hx
  by_contra hc
  have hrs : ∀ y ∈ rstrip l, isPyWs y = true := by
    intro y hy
    by_contra hyc
    have : lstrip (rstrip l) ≠ [] := by
      intro hnil
      have hcount : (lstrip (rstrip l)).count y = (rstrip l).count y :=
        count_lstrip (rstrip l) y (by simpa using hyc)
      rw [hnil] at hcount
      simp only [List.count_nil] at hcount
      have : 0 < (rstrip l).count y := List.count_pos_iff.mpr hy
      omega
    exact this h
  have hxr : (rstrip l).count x = l.count x := count_rstrip l x (by simpa using hc)
  have hxnot : x ∉ rstrip l := by
    intro hmem
    exact hc (hrs x hmem)
  have h0 : (rstrip l).count x = 0 := List.count_eq_zero.mpr hxnot
  have : 0 < l.count x := List.count_pos_iff.mpr hx
  omega

theorem rstrip_nil_of_all_ws (l : Text) (h : ∀ x ∈ l, isPyWs x = true) : rstrip l = [] := by
  have : l.reverse.dropWhile isPyWs = [] :=
    dropWhile_nil_of_all isPyWs l.reverse (fun x hx => h x (List.mem_reverse.mp hx))
  simp [rstrip, this]

theorem overflowPart0_nil_of_ws_preview (s : StreamingState)
    (h : pyStrip (current_preview s) = []) : overflowPart0 s = [] := by
  have hall := all_ws_of_pyStrip_nil _ h
  exact rstrip_nil_of_all_ws _
    (fun x hx => hall x (List.mem_of_mem_take hx))

theorem tool_use_preview_strip_empty (chunk : Chunk) (s : StreamingState) :
    pyStrip (current_preview (_handle_tool_use chunk s)) = [] := by
  by_cases h : (pyStrip (current_preview s)).isEmpty
  · have hnil : pyStrip (current_preview s) = [] := by simpa [List.isEmpty_iff] using h
    have hpre : current_preview (_handle_tool_use chunk s) = current_preview s := by
      simp only [_handle_tool_use, h, if_true]
      rfl
    rw [hpre]
    exact hnil
  · have hne : pyStrip (current_preview s) ≠ [] := by
      intro hc; rw [hc] at h; simp at h
    have hemp : (pyStrip (current_preview s)).isEmpty = false := by
      rcases hh : pyStrip (current_preview s) with _ | ⟨x, xs⟩
      · exact absurd hh hne
      · rfl
    have hprev_ne : current_preview s ≠ [] := by
      intro hc
      apply hne
      rw [hc]
      rfl
    have hcne : s.content ≠ [] := by
      intro hc
      apply hprev_ne
      simp [current_preview, hc]
    have hcemp : s.content.isEmpty = false := by
      rcases hh : s.content with _ | ⟨x, xs⟩
      · exact absurd hh hcne
      · rfl
    have hprev : current_preview s = s.content.drop (sent_content_len s) := by
      simp [current_preview, hcemp]
    have hlt : sent_content_len s < s.content.length := by
      by_contra hge
      apply hprev_ne
      rw [hprev]
      exact List.drop_eq_nil_of_le (by omega)
    have hres : current_preview (_handle_tool_use chunk s) = [] := by
      have hsp : (_handle_tool_use chunk s).sent_parts = s.sent_parts ++ [current_preview s] := by
        simp only [_handle_tool_use, hemp, if_false, Bool.false_eq_true]
      have hco : (_handle_tool_use chunk s).content = s.content :=
        (tool_use_frame chunk s).1
      have hsl : sent_content_len (_handle_tool_use chunk s) =
          sent_content_len s + (current_preview s).length := by
        rw [sent_content_len_eq, hsp, List.map_append, List.sum_append, sent_content_len_eq]
        simp
      have hpre2 : current_preview (_handle_tool_use chunk s) =
          s.content.drop (sent_content_len s + (current_preview s).length) := by
        simp only [current_preview, hco, hcemp, Bool.false_eq_true, if_false, hsl]
      rw [hpre2]
      apply List.drop_eq_nil_of_le
      have hlen : (current_preview s).length = s.content.length - sent_content_len s := by
        rw [hprev, List.length_drop]
      omega
    rw [hres]
    rfl

/-! ## Frame lemmas for finalization and the stream step -/

theorem send_final_thinking_frame (conv : Text → Text) (s : StreamingState)
    (remaining remaining_thinking : Text) :
    ((_send_final_thinking conv s remaining remaining_thinking).1.content = s.content ∧
      (_send_final_thinking conv s remaining remaining_thinking).1.reasoning = s.reasoning ∧
      (_send_final_thinking conv s remaining remaining_thinking).1.sent_parts = s.sent_parts ∧
      (_send_final_thinking conv s remaining remaining_thinking).1.thinking_finalized =
        s.thinking_finalized ∧
      (_send_final_thinking conv s remaining remaining_thinking).1.in_code_block =
        s.in_code_block ∧
      (_send_final_thinking conv s remaining remaining_thinking).1.final_content_confirmed =
        s.final_content_confirmed) ∧
      ((_send_final_thinking conv s remaining remaining_thinking).1.delivered =
          s.delivered ++ [Sent.thinking remaining_thinking] ∧
          (_send_final_thinking conv s remaining remaining_thinking).2 = remaining ∨
        (_send_final_thinking conv s remaining remaining_thinking).1.delivered =
            s.delivered ++ [Sent.combined remaining_thinking remaining] ∧
          (_send_final_thinking conv s remaining remaining_thinking).2 = []) := by
  simp only [_send_final_thinking]
  split_ifs with h1 h2
  · exact ⟨⟨by trivial, by trivial, by trivial, by trivial, by trivial, by trivial⟩,
      Or.inr ⟨by trivial, by trivial⟩⟩
  · exact ⟨⟨by trivial, by trivial, by trivial, by trivial, by trivial, by trivial⟩,
      Or.inl ⟨by trivial, by trivial⟩⟩
  · exact ⟨⟨by trivial, by trivial, by trivial, by trivial, by trivial, by trivial⟩,
      Or.inl ⟨by trivial, by trivial⟩⟩

theorem send_final_content_frame (conv : Text → Text) (s : StreamingState) (remaining : Text) :
    (_send_final_content conv s remaining).content = s.content ∧
      (_send_final_content conv s remaining).reasoning = s.reasoning ∧
      (_send_final_content conv s remaining).sent_parts = s.sent_parts ∧
      (_send_final_content conv s remaining).thinking_finalized = s.thinking_finalized ∧
      (_send_final_content conv s remaining).in_code_block = s.in_code_block ∧
      (_send_final_content conv s remaining).final_content_confirmed =
        s.final_content_confirmed ∧
      (_send_final_content conv s remaining).delivered =
        s.delivered ++ (_split_message_for_markdown conv
            (if s.in_code_block then fenceOpen ++ remaining else remaining)
            SAFE_MESSAGE_LENGTH).map Sent.answer := by
  simp only [_send_final_content]
  exact ⟨by trivial, by trivial, by trivial, by trivial, by trivial, by trivial, by trivial⟩

theorem finalize_frame (conv : Text → Text) (show_thinking : Bool) (s : StreamingState) :
    (_finalize_response conv show_thinking s).content = s.content ∧
      (_finalize_response conv show_thinking s).sent_parts = s.sent_parts ∧
      (_finalize_response conv show_thinking s).thinking_finalized = s.thinking_finalized ∧
      (_finalize_response conv show_thinking s).final_content_confirmed =
        s.final_content_confirmed ∧
      (∃ extra : List Sent,
        (_finalize_response conv show_thinking s).delivered = s.delivered ++ extra) := by
  by_cases hre : s.reasoning.isEmpty
  · simp only [_finalize_response, hre, if_true]
    have hfalse : ¬ (show_thinking = true ∧ (List.isEmpty ([] : Text)) = false ∧
        s.thinking_finalized = false) := by
      intro ⟨_, hx, _⟩
      simp at hx
    simp only [hfalse, if_false]
    split_ifs with h2
    · obtain ⟨hc2, hr2, hsp2, htf2, hicb2, hconf2, hdel2⟩ :=
        send_final_content_frame conv s (remainingOf s)
      exact ⟨hc2, hsp2, htf2, hconf2, ⟨_, hdel2⟩⟩
    · exact ⟨rfl, rfl, rfl, rfl, ⟨[], by simp⟩⟩
  · simp only [_finalize_response, hre, if_false, Bool.false_eq_true]
    split_ifs with h1 h2
    · obtain ⟨⟨hc, hr, hsp, htf, hicb, hconf⟩, hdel⟩ :=
        send_final_thinking_frame conv s (remainingOf s) (current_thinking s)
      obtain ⟨hc2, hr2, hsp2, htf2, hicb2, hconf2, hdel2⟩ :=
        send_final_content_frame conv
          (_send_final_thinking conv s (remainingOf s) (current_thinking s)).1
          (_send_final_thinking conv s (remainingOf s) (current_thinking s)).2
      refine ⟨by rw [hc2, hc], by rw [hsp2, hsp], by rw [htf2, htf], by rw [hconf2, hconf], ?_⟩
      rcases hdel with ⟨hd, _⟩ | ⟨hd, _⟩ <;>
        exact ⟨_, by rw [hdel2, hd, List.append_assoc]⟩
    · obtain ⟨⟨hc, hr, hsp, htf, hicb, hconf⟩, hdel⟩ :=
        send_final_thinking_frame conv s (remainingOf s) (current_thinking s)
      refine ⟨hc, hsp, htf, hconf, ?_⟩
      rcases hdel with ⟨hd, _⟩ | ⟨hd, _⟩ <;> exact ⟨_, hd⟩
    · obtain ⟨hc2, hr2, hsp2, htf2, hicb2, hconf2, hdel2⟩ :=
        send_final_content_frame conv s (remainingOf s)
      exact ⟨hc2, hsp2, htf2, hconf2, ⟨_, hdel2⟩⟩
    · exact ⟨rfl, rfl, rfl, rfl, ⟨[], by simp⟩⟩

theorem streamStep_thinking_latch (show_thinking : Bool) (s : StreamingState) (e : Event)
    (h : s.thinking_finalized = true) :
    (streamStep show_thinking s e).thinking_finalized = true := by
  simp only [streamStep]
  have h1 : (_handle_chunk e.chunk s).thinking_finalized = true := by
    rw [(handle_chunk_frame e.chunk s).2.1]; exact h
  by_cases hr : e.render
  · simp only [hr, if_true]
    set s1 := _handle_chunk e.chunk s with hs1
    set s2 := if show_thinking = true ∧ s1.thinking_finalized = false ∧ s1.pending_tool = none ∧
        s1.final_content_confirmed = false then _handle_thinking_overflow s1 else s1 with hs2
    have h2 : s2.thinking_finalized = true := by
      rw [hs2]
      split_ifs with hg
      · obtain ⟨-, -, -, htf, -⟩ := thinking_overflow_frame s1
        rw [htf]; exact h1
      · exact h1
    have h3 : (_handle_content_overflow show_thinking s2).thinking_finalized = true := by
      rcases content_overflow_cases show_thinking s2 with heq | ⟨hc1, hc2⟩
      · rw [heq]; exact h2
      · obtain ⟨-, -, -, -, -, -, htf, -⟩ := content_overflow_fired show_thinking s2 hc1 hc2
        rcases htf with htf | htf
        · rw [htf]; exact h2
        · exact htf
    rw [(update_draft_frame _).2.2.2.2.1]
    exact h3
  · simp only [hr, if_false, Bool.false_eq_true]
    exact h1

theorem streamStep_confirmed_latch (show_thinking : Bool) (s : StreamingState) (e : Event)
    (htool : e.chunk.is_tool_use = false) (h : s.final_content_confirmed = true) :
    (streamStep show_thinking s e).final_content_confirmed = true := by
  simp only [streamStep]
  have h1 : (_handle_chunk e.chunk s).final_content_confirmed = true := by
    rw [((handle_chunk_frame e.chunk s).2.2.2.2.2.1 htool).2]; exact h
  by_cases hr : e.render
  · simp only [hr, if_true]
    set s1 := _handle_chunk e.chunk s with hs1
    set s2 := if show_thinking = true ∧ s1.thinking_finalized = false ∧ s1.pending_tool = none ∧
        s1.final_content_confirmed = false then _handle_thinking_overflow s1 else s1 with hs2
    have h2 : s2.final_content_confirmed = true := by
      rw [hs2]
      split_ifs with hg
      · obtain ⟨-, -, -, -, -, -, hcf, -⟩ := thinking_overflow_frame s1
        rw [hcf]; exact h1
      · exact h1
    have h3 : (_handle_content_overflow show_thinking s2).final_content_confirmed = true := by
      rcases content_overflow_cases show_thinking s2 with heq | ⟨hc1, hc2⟩
      · rw [heq]; exact h2
      · obtain ⟨-, -, -, -, hcf, -⟩ := content_overflow_fired show_thinking s2 hc1 hc2
        rw [hcf]; exact h2
    exact update_draft_confirmed_true _ h3
  · simp only [hr, if_false, Bool.false_eq_true]
    exact h1

theorem streamStep_tool_resets_confirmed (show_thinking : Bool) (s : StreamingState) (e : Event)
    (htool : e.chunk.is_tool_use = true) :
    (streamStep show_thinking s e).final_content_confirmed = false := by
  simp only [streamStep]
  have hchunk : ∃ s', _handle_chunk e.chunk s = _handle_tool_use e.chunk s' := by
    simp only [_handle_chunk, htool, if_true]
    exact ⟨_, rfl⟩
  obtain ⟨s', hchunk⟩ := hchunk
  have h1 : (_handle_chunk e.chunk s).final_content_confirmed = false := by
    rw [hchunk]
    exact (tool_use_frame _ _).2.2.2.2.1
  have hstrip : pyStrip (current_preview (_handle_chunk e.chunk s)) = [] := by
    rw [hchunk]
    exact tool_use_preview_strip_empty _ _
  by_cases hr : e.render
  · simp only [hr, if_true]
    set s1 := _handle_chunk e.chunk s with hs1
    set s2 := if show_thinking = true ∧ s1.thinking_finalized = false ∧ s1.pending_tool = none ∧
        s1.final_content_confirmed = false then _handle_thinking_overflow s1 else s1 with hs2
    have h2 : s2.final_content_confirmed = false ∧ pyStrip (current_preview s2) = [] := by
      rw [hs2]
      split_ifs with hg
      · obtain ⟨hcon, -, hsp, -, -, -, hcf, -⟩ := thinking_overflow_frame s1
        constructor
        · rw [hcf]; exact h1
        · have : current_preview (_handle_thinking_overflow s1) = current_preview s1 := by
            simp only [current_preview, hcon, sent_content_len_eq, hsp]
          rw [this]; exact hstrip
      · exact ⟨h1, hstrip⟩
    have h3 : (_handle_content_overflow show_thinking s2).final_content_confirmed = false ∧
        pyStrip (current_preview (_handle_content_overflow show_thinking s2)) = [] := by
      have hskip : _handle_content_overflow show_thinking s2 = s2 :=
        content_overflow_skip show_thinking s2
          (Or.inr (overflowPart0_nil_of_ws_preview s2 h2.2))
      rw [hskip]
      exact h2
    rw [update_draft_confirmed_small _ (by rw [h3.2]; simp [pyLen, pyLenAux, FINAL_CONTENT_MIN_LENGTH])]
    exact h3.1
  · simp only [hr, if_false, Bool.false_eq_true]
    exact h1

/-- C5 (counterexample): `final_content_confirmed` is NOT a one-way latch —
after a 100-character chunk confirms the answer, a tool-use event resets
the flag to `false` (`state.final_content_confirmed = False` in
`_handle_tool_use`). -/
theorem c5_counterexample :
    (runStream false [⟨⟨[], List.replicate 100 'x', false, ""⟩, true⟩]).final_content_confirmed
        = true ∧
      (runStream false [⟨⟨[], List.replicate 100 'x', false, ""⟩, true⟩,
          ⟨⟨[], [], true, "web_search"⟩, false⟩]).final_content_confirmed = false := by
  exact ⟨by decide, by decide⟩

/-- C5 (amended): `thinking_finalized` is a one-way latch (false→true only,
preserved by every stream step and by finalization), and
`final_content_confirmed` may change from false to true and is reset to
false only by a tool-use event — never by a non-tool chunk arrival,
overflow handling, preview update, or finalization; after a tool-use step
it is always false. -/
theorem c5_latches_amended : ∀ (conv : Text → Text) (show_thinking : Bool)
    (s : StreamingState) (e : Event),
    (s.thinking_finalized = true → (streamStep show_thinking s e).thinking_finalized = true) ∧
      (_finalize_response conv show_thinking s).thinking_finalized = s.thinking_finalized ∧
      (e.chunk.is_tool_use = false → s.final_content_confirmed = true →
        (streamStep show_thinking s e).final_content_confirmed = true) ∧
      (e.chunk.is_tool_use = true →
        (streamStep show_thinking s e).final_content_confirmed = false) ∧
      (_finalize_response conv show_thinking s).final_content_confirmed =
        s.final_content_confirmed :=
  fun conv show_thinking s e =>
    ⟨streamStep_thinking_latch show_thinking s e,
      (finalize_frame conv show_thinking s).2.2.1,
      fun htool h => streamStep_confirmed_latch show_thinking s e htool h,
      fun htool => streamStep_tool_resets_confirmed show_thinking s e htool,
      (finalize_frame conv show_thinking s).2.2.2.1⟩

/-- Witness for C5 (amended): a state with both latches set, one non-tool
event and one tool event. -/
theorem c5_witness :
    (StreamingState.mk [] [] [] [] true false none true [] []).thinking_finalized = true ∧
      (streamStep false (StreamingState.mk [] [] [] [] true false none true [] [])
          ⟨⟨[], ['h'], false, ""⟩, true⟩).thinking_finalized = true ∧
      (streamStep false (StreamingState.mk [] [] [] [] true false none true [] [])
          ⟨⟨[], ['h'], false, ""⟩, true⟩).final_content_confirmed = true ∧
      (streamStep false (StreamingState.mk [] [] [] [] true false none true [] [])
          ⟨⟨[], [], true, "web_search"⟩, true⟩).final_content_confirmed = false :=
  ⟨rfl,
    (c5_latches_amended id false (StreamingState.mk [] [] [] [] true false none true [] [])
        ⟨⟨[], ['h'], false, ""⟩, true⟩).1 rfl,
    (c5_latches_amended id false (StreamingState.mk [] [] [] [] true false none true [] [])
        ⟨⟨[], ['h'], false, ""⟩, true⟩).2.2.1 rfl rfl,
    (c5_latches_amended id false (StreamingState.mk [] [] [] [] true false none true [] [])
        ⟨⟨[], [], true, "web_search"⟩, true⟩).2.2.2.1 rfl⟩

/-! ## Lemmas for finalization delivery (C4) -/

theorem split_markdown_ne_nil (conv : Text → Text) (text : Text) (max_length : Nat)
    (h : text ≠ []) : _split_message_for_markdown conv text max_length ≠ [] := by
  have hemp : text.isEmpty = false := by
    rcases hh : text with _ | ⟨x, xs⟩
    · exact absurd hh h
    · rfl
  simp only [_split_message_for_markdown, hemp, if_false, Bool.false_eq_true]
  obtain ⟨-, hrawne, -⟩ := fit_props conv text max_length h
  have hraw : (_fit_formatted_chunk conv text max_length).1.isEmpty = false := by
    rcases hh : (_fit_formatted_chunk conv text max_length).1 with _ | ⟨x, xs⟩
    · exact absurd hh hrawne
    · rfl
  show split_markdown_loop conv max_length (pyLen text + 1) text ≠ []
  simp only [split_markdown_loop, hemp, hraw, if_false, Bool.false_eq_true]
  simp

theorem remainingOf_of_empty (s : StreamingState) (hc : s.content = [])
    (hp : s.sent_parts = []) : remainingOf s = noResponseText := by
  have hfc : finalContentOf s = noResponseText := by simp [finalContentOf, hc]
  have hsl : sent_content_len s = 0 := by
    rw [sent_content_len_eq, hp]; rfl
  simp [remainingOf, hfc, hsl, noResponseText]

theorem strip_sentinel_suffix_ne : ∀ k, k < 22 → pyStrip (noResponseText.drop k) ≠ [] := by
  decide

theorem strip_remaining_ne_of_empty (s : StreamingState) (hc : s.content = []) :
    pyStrip (remainingOf s) ≠ [] := by
  have hfc : finalContentOf s = noResponseText := by simp [finalContentOf, hc]
  have hlen : (finalContentOf s).length = 22 := by rw [hfc]; rfl
  simp only [remainingOf]
  split_ifs with h
  · rw [hfc]
    exact strip_sentinel_suffix_ne (sent_content_len s) (by rw [pyLen_eq] at h; omega)
  · rw [hfc]
    have := strip_sentinel_suffix_ne 0 (by omega)
    simpa using this

theorem finalize_delivers (conv : Text → Text) (show_thinking : Bool) (s : StreamingState)
    (h : pyStrip (remainingOf s) ≠ []) :
    s.delivered.length < (_finalize_response conv show_thinking s).delivered.length := by
  have hbne : (pyStrip (remainingOf s)).isEmpty = false := by
    rcases hh : pyStrip (remainingOf s) with _ | ⟨x, xs⟩
    · exact absurd hh h
    · rfl
  have hrne : remainingOf s ≠ [] := by
    intro hc
    apply h
    rw [hc]
    rfl
  by_cases hre : s.reasoning.isEmpty
  · simp only [_finalize_response, hre, if_true]
    have hfalse : ¬ (show_thinking = true ∧ (List.isEmpty ([] : Text)) = false ∧
        s.thinking_finalized = false) := by
      intro ⟨_, hx, _⟩
      simp at hx
    simp only [hfalse, if_false, hbne, if_true]
    obtain ⟨-, -, -, -, -, -, hdel⟩ := send_final_content_frame conv s (remainingOf s)
    rw [hdel, List.length_append, List.length_map]
    have hne2 : (if s.in_code_block then fenceOpen ++ remainingOf s else remainingOf s) ≠ [] := by
      split_ifs <;> simp [hrne, fenceOpen]
    have := split_markdown_ne_nil conv _ SAFE_MESSAGE_LENGTH hne2
    have hpos : 0 < (_split_message_for_markdown conv
        (if s.in_code_block then fenceOpen ++ remainingOf s else remainingOf s)
        SAFE_MESSAGE_LENGTH).length := List.length_pos.mpr this
    omega
  · simp only [_finalize_response, hre, if_false, Bool.false_eq_true]
    split_ifs with h1 h2
    · obtain ⟨⟨hc, hr, hsp, htf, hicb, hconf⟩, hdel⟩ :=
        send_final_thinking_frame conv s (remainingOf s) (current_thinking s)
      obtain ⟨-, -, -, -, -, -, hdel2⟩ :=
        send_final_content_frame conv
          (_send_final_thinking conv s (remainingOf s) (current_thinking s)).1
          (_send_final_thinking conv s (remainingOf s) (current_thinking s)).2
      rw [hdel2, List.length_append]
      rcases hdel with ⟨hd, -⟩ | ⟨hd, -⟩ <;>
        · rw [hd]
          simp only [List.length_append, List.length_singleton]
          omega
    · obtain ⟨⟨hc, hr, hsp, htf, hicb, hconf⟩, hdel⟩ :=
        send_final_thinking_frame conv s (remainingOf s) (current_thinking s)
      rcases hdel with ⟨hd, -⟩ | ⟨hd, -⟩ <;>
        · rw [hd]
          simp only [List.length_append, List.length_singleton]
          omega
    · obtain ⟨-, -, -, -, -, -, hdel⟩ := send_final_content_frame conv s (remainingOf s)
      rw [hdel, List.length_append, List.length_map]
      have hne2 : (if s.in_code_block then fenceOpen ++ remainingOf s else remainingOf s) ≠ [] := by
        split_ifs <;> simp [hrne, fenceOpen]
      have := split_markdown_ne_nil conv _ SAFE_MESSAGE_LENGTH hne2
      have hpos : 0 < (_split_message_for_markdown conv
          (if s.in_code_block then fenceOpen ++ remainingOf s else remainingOf s)
          SAFE_MESSAGE_LENGTH).length := List.length_pos.mpr this
      omega

/-- C4 (counterexample): a whitespace-only answer (`content = " "`) is not
replaced by the sentinel (it is non-empty) and strips to nothing, so the
stream completes without delivering ANY permanent message — the claim's
"at least one permanent message for every stream, including whitespace-only
answers" fails. -/
theorem c4_counterexample :
    (runGeneration id false [⟨⟨[], [' '], false, ""⟩, true⟩]).delivered = [] ∧
      (runStream false [⟨⟨[], [' '], false, ""⟩, true⟩]).content ≠ [] := by
  exact ⟨by decide, by decide⟩

/-- C4 (amended): if the accumulated answer is empty at stream end (and
nothing was ledgered), the text flushed by `_finalize_response` is the
fixed sentinel `"No response generated."`; and at least one permanent
message is delivered at finalization whenever the answer is empty or the
unsent remainder contains a non-whitespace character (this covers the
upstream-error path, whose apology text is non-whitespace).  A non-empty
answer whose unsent remainder is whitespace-only may deliver nothing. -/
theorem c4_sentinel_amended : ∀ (conv : Text → Text) (show_thinking : Bool) (s : StreamingState),
    (s.content = [] ∧ s.sent_parts = [] → remainingOf s = noResponseText) ∧
      (s.content = [] ∨ pyStrip (remainingOf s) ≠ [] →
        s.delivered.length < (_finalize_response conv show_thinking s).delivered.length) := by
  intro conv show_thinking s
  refine ⟨fun ⟨hc, hp⟩ => remainingOf_of_empty s hc hp, fun h => ?_⟩
  rcases h with hc | hne
  · exact finalize_delivers conv show_thinking s (strip_remaining_ne_of_empty s hc)
  · exact finalize_delivers conv show_thinking s hne

/-- Witness for C4 (amended) at the fresh state (empty answer): the
sentinel is flushed and a message is delivered. -/
theorem c4_witness :
    (initState.content = [] ∧ initState.sent_parts = []) ∧
      (initState.content = [] ∨ pyStrip (remainingOf initState) ≠ []) ∧
      remainingOf initState = noResponseText ∧
      initState.delivered.length < (_finalize_response id false initState).delivered.length :=
  ⟨⟨rfl, rfl⟩, Or.inl rfl,
    (c4_sentinel_amended id false initState).1 ⟨rfl, rfl⟩,
    (c4_sentinel_amended id false initState).2 (Or.inl rfl)⟩

/-- C6 (counterexample): after a rate-limit rejection of the first
(MarkdownV2, converted) attempt, the single retry is
`bot.send_message(..., parse_mode=None)` — a PLAIN-text send of the raw
part, not "the same formatting as the first attempt". -/
theorem c6_counterexample :
    (send_content_part id [SendOutcome.rateLimited 3, SendOutcome.ok 1] ("hi".toList)).1 =
        [⟨"hi".toList, ParseMode.markdownV2⟩, ⟨"hi".toList, ParseMode.plain⟩] ∧
      ParseMode.plain ≠ ParseMode.markdownV2 := by
  exact ⟨by decide, by decide⟩

/-- C6 (amended): when the MarkdownV2 send of a finalized answer part is
rejected with a rate limit, the renderer sleeps the platform-specified
backoff and retries exactly once as a PLAIN-text send of the raw part
(`parse_mode=None`); a second rate limit propagates out of the overflow
handler as a fatal generation error. -/
theorem c6_rate_limit_retry_amended : ∀ (conv : Text → Text) (part : Text) (n m : Nat)
    (os : List SendOutcome),
    (∃ ft : Text,
      (send_content_part conv (SendOutcome.rateLimited n :: SendOutcome.ok m :: os) part).1 =
          [⟨ft, ParseMode.markdownV2⟩, ⟨part, ParseMode.plain⟩] ∧
        (send_content_part conv
            (SendOutcome.rateLimited n :: SendOutcome.rateLimited m :: os) part).1 =
          [⟨ft, ParseMode.markdownV2⟩, ⟨part, ParseMode.plain⟩]) ∧
      (send_content_part conv (SendOutcome.rateLimited n :: SendOutcome.ok m :: os) part).2.1
          = [n] ∧
      (send_content_part conv (SendOutcome.rateLimited n :: SendOutcome.ok m :: os) part).2.2
          = Except.ok () ∧
      (send_content_part conv
          (SendOutcome.rateLimited n :: SendOutcome.rateLimited m :: os) part).2.1 = [n] ∧
      (send_content_part conv
          (SendOutcome.rateLimited n :: SendOutcome.rateLimited m :: os) part).2.2 =
        Except.error (TgError.retryAfter m) := by
  intro conv part n m os
  simp only [send_content_part, _send_with_markdown_fallback, takeOutcome, if_true]
  split_ifs with hf
  · exact ⟨⟨_, by trivial, by trivial⟩, by trivial, by trivial, by trivial, by trivial⟩
  · exact ⟨⟨_, by trivial, by trivial⟩, by trivial, by trivial, by trivial, by trivial⟩

/-! ## Fence parity (C3) -/

theorem countSubstrAux_shift (sub : Text) : ∀ (s : Text) (k acc : Nat),
    countSubstrAux sub s k acc = acc + countSubstrAux sub s k 0 := by
  intro s
  induction s with
  | nil => intro k acc; simp [countSubstrAux]
  | cons c rest ih =>
      intro k acc
      cases k with
      | zero =>
          by_cases hp : sub.isPrefixOf (c :: rest)
          · simp only [countSubstrAux, hp, if_true]
            rw [ih (sub.length - 1) (acc + 1), ih (sub.length - 1) (0 + 1)]
            omega
          · simp only [countSubstrAux, hp, Bool.false_eq_true, if_false]
            exact ih 0 acc
      | succ k =>
          simp only [countSubstrAux]
          rw [ih k acc]

theorem countSubstr_fenceOpen (X : Text) :
    countSubstr fenceMarks (fenceOpen ++ X) = countSubstr fenceMarks X + 1 := by
  have h1 : fenceMarks.isEmpty = false := rfl
  simp only [countSubstr, h1, if_false, Bool.false_eq_true]
  have hfo : fenceOpen ++ X = '`' :: '`' :: '`' :: '\n' :: X := rfl
  rw [hfo]
  have hp1 : fenceMarks.isPrefixOf ('`' :: '`' :: '`' :: '\n' :: X) = true := by
    simp [fenceMarks, List.isPrefixOf]
  have hp2 : fenceMarks.isPrefixOf ('\n' :: X) = false := by
    simp [fenceMarks, List.isPrefixOf]
  show countSubstrAux fenceMarks ('`' :: '`' :: '`' :: '\n' :: X) 0 0 =
    countSubstrAux fenceMarks X 0 0 + 1
  simp only [countSubstrAux, hp1, if_true, hp2, Bool.false_eq_true, if_false]
  rw [countSubstrAux_shift fenceMarks X 0 (0 + 1)]
  omega

def c3Content : Text :=
  "```".toList ++ List.replicate 3693 'a' ++ "\n\n".toList ++ List.replicate 102 'b'

def c3Events : List Event := [⟨⟨[], c3Content, false, ""⟩, true⟩]

set_option maxRecDepth 100000 in
/-- C3 (counterexample): an answer with an odd number of fence markers that
straddles the forced split point does NOT yield two even-count segments:
here the delivered head contains one marker (odd) and the final tail —
even after receiving the reopening prefix — again contains one marker
(odd).  (Both segments even is impossible when the run starts outside a
code block, because the segments' raw counts sum to an odd number.) -/
theorem c3_counterexample :
    countSubstr fenceMarks c3Content % 2 = 1 ∧
      (answerTexts (runGeneration id false c3Events).delivered).map
          (fun t => countSubstr fenceMarks t % 2) = [1, 1] := by
  exact ⟨by decide, by decide⟩

/-- C3 (amended): what the reopening logic actually guarantees at a forced
split: the head is delivered with the reopening prefix exactly when
`in_code_block` was set; `in_code_block` is updated to the head's fence
parity (cleared iff the delivered head's marker count is even); the prefix
adds exactly one marker to the head; hence when the split begins inside an
already-reopened fence and the head's own count is odd, the delivered head
has an even count and the flag is cleared — so the final flush hands the
splitter the remaining text without a reopening prefix. -/
theorem c3_fence_parity_amended : ∀ (show_thinking : Bool) (s : StreamingState),
    SAFE_MESSAGE_LENGTH - 100 ≤ pyLen (current_preview s) →
    overflowPart0 s ≠ [] →
    (∃ ts : List Text,
        (_handle_content_overflow show_thinking s).delivered =
          s.delivered ++ ts.map Sent.thinking ++ [Sent.answer (overflowPart s)]) ∧
      ((_handle_content_overflow show_thinking s).in_code_block = false ↔
        countSubstr fenceMarks (overflowPart s) % 2 = 0) ∧
      (s.in_code_block = true →
        countSubstr fenceMarks (overflowPart s) = countSubstr fenceMarks (overflowPart0 s) + 1) ∧
      (s.in_code_block = true → countSubstr fenceMarks (overflowPart0 s) % 2 = 1 →
        countSubstr fenceMarks (overflowPart s) % 2 = 0 ∧
          (_handle_content_overflow show_thinking s).in_code_block = false) ∧
      (∀ (conv : Text → Text) (rem : Text),
        (_handle_content_overflow show_thinking s).in_code_block = false →
        (_send_final_content conv (_handle_content_overflow show_thinking s) rem).delivered =
          (_handle_content_overflow show_thinking s).delivered ++
            (_split_message_for_markdown conv rem SAFE_MESSAGE_LENGTH).map Sent.answer) := by
  intro show_thinking s h1 h2
  obtain ⟨-, -, -, hicb, -, -, -, hdel⟩ := content_overflow_fired show_thinking s h1 h2
  have hparity : (_handle_content_overflow show_thinking s).in_code_block = false ↔
      countSubstr fenceMarks (overflowPart s) % 2 = 0 := by
    rw [hicb]
    constructor
    · intro hb
      have : ¬ (countSubstr fenceMarks (overflowPart s) % 2 = 1) := by
        intro hco
        rw [hco] at hb
        simp at hb
      omega
    · intro hz
      have : (countSubstr fenceMarks (overflowPart s) % 2 == 1) = false := by
        rw [hz]
        rfl
      exact this
  have hplus : s.in_code_block = true →
      countSubstr fenceMarks (overflowPart s) = countSubstr fenceMarks (overflowPart0 s) + 1 := by
    intro hcb
    simp only [overflowPart, hcb, if_true]
    exact countSubstr_fenceOpen (overflowPart0 s)
  refine ⟨hdel, hparity, hplus, fun hcb hodd => ?_, fun conv rem hfz => ?_⟩
  · have heven : countSubstr fenceMarks (overflowPart s) % 2 = 0 := by
      rw [hplus hcb]
      omega
    exact ⟨heven, hparity.mpr heven⟩
  · obtain ⟨-, -, -, -, -, -, hdel2⟩ :=
      send_final_content_frame conv (_handle_content_overflow show_thinking s) rem
    rw [hdel2, hfz]
    simp

def c3WitState : StreamingState :=
  ⟨"```".toList ++ List.replicate 3690 'a' ++ "\n\n".toList ++ List.replicate 105 'b',
    [], [], [], false, true, none, false, [], []⟩

set_option maxRecDepth 100000 in
/-- Witness for C3 (amended): a 3800-character preview continuing an open
code block (`in_code_block = true`) whose head carries an odd marker
count; the delivered head is even and the flag is cleared. -/
theorem c3_witness :
    SAFE_MESSAGE_LENGTH - 100 ≤ pyLen (current_preview c3WitState) ∧
      overflowPart0 c3WitState ≠ [] ∧
      c3WitState.in_code_block = true ∧
      countSubstr fenceMarks (overflowPart0 c3WitState) % 2 = 1 ∧
      countSubstr fenceMarks (overflowPart c3WitState) % 2 = 0 ∧
      (_handle_content_overflow false c3WitState).in_code_block = false :=
  ⟨by decide, by decide, rfl, by decide,
    ((c3_fence_parity_amended false c3WitState (by decide) (by decide)).2.2.2.1 rfl
      (by decide)).1,
    ((c3_fence_parity_amended false c3WitState (by decide) (by decide)).2.2.2.1 rfl
      (by decide)).2⟩

theorem countSubstr_single (c : Char) (l : Text) : countSubstr [c] l = l.count c := by
  have haux : ∀ (s : Text), countSubstrAux [c] s 0 0 = s.count c := by
    intro s
    induction s with
    | nil => simp [countSubstrAux]
    | cons a rest ih =>
        by_cases hp : List.isPrefixOf [c] (a :: rest)
        · have hca : c = a := by
            simpa [List.isPrefixOf] using hp
        
          simp only [countSubstrAux, hp, if_true]
          rw [show [c].length - 1 = 0 from rfl, countSubstrAux_shift [c] rest 0 1, ih,
            List.count_cons]
          simp [hca]
          omega
        · have hca : ¬ c = a := by
            intro h
            apply hp
            subst h
            simp [List.isPrefixOf]
          simp only [countSubstrAux, hp, Bool.false_eq_true, if_false]
          rw [ih, List.count_cons]
          have : ¬ a = c := fun h => hca h.symm
          simp [this]
  simp only [countSubstr]
  rw [haux]
  rfl

theorem streamStep_content (show_thinking : Bool) (s : StreamingState) (e : Event) :
    (streamStep show_thinking s e).content = s.content ++ e.chunk.content := by
  simp only [streamStep]
  have h1 : (_handle_chunk e.chunk s).content = s.content ++ e.chunk.content :=
    (handle_chunk_frame e.chunk s).1
  by_cases hr : e.render
  · simp only [hr, if_true]
    set s1 := _handle_chunk e.chunk s with hs1
    set s2 := if show_thinking = true ∧ s1.thinking_finalized = false ∧ s1.pending_tool = none ∧
        s1.final_content_confirmed = false then _handle_thinking_overflow s1 else s1 with hs2
    have h2 : s2.content = s1.content := by
      rw [hs2]
      split_ifs with hg
      · exact (thinking_overflow_frame s1).1
      · rfl
    have h3 : (_handle_content_overflow show_thinking s2).content = s2.content := by
      rcases content_overflow_cases show_thinking s2 with heq | ⟨hc1, hc2⟩
      · rw [heq]
      · exact (content_overflow_fired show_thinking s2 hc1 hc2).1
    rw [(update_draft_frame _).1, h3, h2, h1]
  · simp only [hr, if_false, Bool.false_eq_true]
    exact h1

def c1Content1 : Text :=
  "```".toList ++ List.replicate 3693 'a' ++ "\n\n".toList ++ List.replicate 102 'b'

def c1Content2 : Text := List.replicate 3590 'c' ++ "\n\n".toList ++ List.replicate 104 'd'

def c1Events : List Event :=
  [⟨⟨[], c1Content1, false, ""⟩, true⟩, ⟨⟨[], c1Content2, false, ""⟩, true⟩]

set_option maxRecDepth 100000 in
/-- C1 (code-bug exhibit): after an overflow send inside an open code
fence, `_handle_content_overflow` appends the part WITH its reopening
"```\n" prefix to `sent_parts` (line 741 of `messages.py`), so the ledger
over-counts by four characters: the concatenation of `sent_parts` is no
longer a prefix of `content` (the first 3697 ledger characters contain
four backticks where the answer contains only three), and four characters
of the answer are silently skipped.  The weaker bound
`sent_content_len ≤ len(content)` does still hold on this trace. -/
theorem c1_fence_ledger_exhibit :
    ¬ ((runStream false c1Events).sent_parts.flatten <+:
        (runStream false c1Events).content) ∧
      sent_content_len (runStream false c1Events) ≤ pyLen (runStream false c1Events).content := by
  constructor
  · intro h
    have hcontent : (runStream false c1Events).content = ([] ++ c1Content1) ++ c1Content2 := by
      show (streamStep false (streamStep false initState
          ⟨⟨[], c1Content1, false, ""⟩, true⟩) ⟨⟨[], c1Content2, false, ""⟩, true⟩).content =
        ([] ++ c1Content1) ++ c1Content2
      rw [streamStep_content, streamStep_content]
      rfl
    have hccount : (runStream false c1Events).content.count '`' = 3 := by
      rw [hcontent]
      simp only [List.nil_append, List.count_append]
      rw [← countSubstr_single, ← countSubstr_single]
      have hc1 : countSubstr ['`'] c1Content1 = 3 := by decide
      have hc2 : countSubstr ['`'] c1Content2 = 0 := by decide
      omega
    have hpcounts : (runStream false c1Events).sent_parts.map
        (fun p => countSubstr ['`'] p) = [3, 3] := by decide
    have hfcount : (runStream false c1Events).sent_parts.flatten.count '`' = 6 := by
      rw [List.count_flatten]
      have hmap : (runStream false c1Events).sent_parts.map (List.count '`') =
          (runStream false c1Events).sent_parts.map (fun p => countSubstr ['`'] p) := by
        apply List.map_congr_left
        intro p _
        rw [countSubstr_single]
      rw [hmap, hpcounts]
      rfl
    have hle := h.sublist.count_le '`'
    rw [hfcount, hccount] at hle
    omega
  · have hs : sent_content_len (runStream false c1Events) = 7394 := by decide
    have hc : pyLen (runStream false c1Events).content = 7496 := by decide
    omega

/-! ## Machinery for the tool-isolation and confirmation claims -/

theorem answerTexts_append : ∀ (a b : List Sent),
    answerTexts (a ++ b) = answerTexts a ++ answerTexts b := by
  intro a
  induction a with
  | nil => intro b; rfl
  | cons m rest ih =>
      intro b
      cases m <;> simp [answerTexts, ih]

theorem answerTexts_map_thinking (ts : List Text) : answerTexts (ts.map Sent.thinking) = [] := by
  induction ts with
  | nil => rfl
  | cons t rest ih => simp [answerTexts, ih]

theorem answerTexts_map_answer (ps : List Text) : answerTexts (ps.map Sent.answer) = ps := by
  induction ps with
  | nil => rfl
  | cons p rest ih => simp [answerTexts, ih]

theorem split_markdown_loop_part_of_mem (conv : Text → Text) (max_length : Nat) :
    ∀ (fuel : Nat) (remaining p : Text), p ∈ split_markdown_loop conv max_length fuel remaining →
      p <:+: remaining := by
  intro fuel
  induction fuel with
  | zero => intro remaining p hp; simp [split_markdown_loop] at hp
  | succ fuel ih =>
      intro remaining p hp
      by_cases hemp : remaining.isEmpty
      · simp [split_markdown_loop, hemp] at hp
      · simp only [split_markdown_loop, hemp, if_false, Bool.false_eq_true] at hp
        by_cases hraw : (_fit_formatted_chunk conv remaining max_length).1.isEmpty
        · simp [hraw] at hp
        · simp only [hraw, if_false, Bool.false_eq_true, List.mem_cons] at hp
          have hconcat := fit_concat conv remaining max_length
          rcases hp with hh | ht
          · subst hh
            have h1 : rstrip (_fit_formatted_chunk conv remaining max_length).1 <+:
                (_fit_formatted_chunk conv remaining max_length).1 := rstrip_pre _
            have h2 : (_fit_formatted_chunk conv remaining max_length).1 <+: remaining :=
              ⟨(_fit_formatted_chunk conv remaining max_length).2.2, hconcat⟩
            exact (h1.trans h2).isInfix
          · have h1 := ih (lstrip (_fit_formatted_chunk conv remaining max_length).2.2) p ht
            have h2 : lstrip (_fit_formatted_chunk conv remaining max_length).2.2 <:+
                (_fit_formatted_chunk conv remaining max_length).2.2 := lstrip_suf _
            have h3 : (_fit_formatted_chunk conv remaining max_length).2.2 <:+ remaining :=
              ⟨(_fit_formatted_chunk conv remaining max_length).1, hconcat⟩
            exact h1.trans ((h2.trans h3).isInfix)

theorem split_markdown_part_of_mem (conv : Text → Text) (text : Text) (max_length : Nat) (p : Text)
    (h : p ∈ _split_message_for_markdown conv text max_length) : p <:+: text := by
  by_cases hemp : text.isEmpty
  · simp [_split_message_for_markdown, hemp] at h
  · simp only [_split_message_for_markdown, hemp, if_false, Bool.false_eq_true] at h
    exact split_markdown_loop_part_of_mem conv max_length _ text p h

theorem sent_len_le_of_ext (s s' : StreamingState) (ps : List Text)
    (h : s'.sent_parts = s.sent_parts ++ ps) : sent_content_len s ≤ sent_content_len s' := by
  rw [sent_content_len_eq, sent_content_len_eq, h, List.map_append, List.sum_append]
  omega

theorem handle_chunk_sent_ext (chunk : Chunk) (s : StreamingState) :
    ∃ ps : List Text, (_handle_chunk chunk s).sent_parts = s.sent_parts ++ ps := by
  rcases (handle_chunk_frame chunk s).2.2.2.2.2.2.2 with h | ⟨p, h⟩
  · exact ⟨[], by simp [h]⟩
  · exact ⟨[p], h⟩

theorem streamStep_sent_ext (show_thinking : Bool) (s : StreamingState) (e : Event) :
    ∃ ps : List Text, (streamStep show_thinking s e).sent_parts = s.sent_parts ++ ps := by
  simp only [streamStep]
  obtain ⟨ps1, hps1⟩ := handle_chunk_sent_ext e.chunk s
  by_cases hr : e.render
  · simp only [hr, if_true]
    set s1 := _handle_chunk e.chunk s with hs1
    set s2 := if show_thinking = true ∧ s1.thinking_finalized = false ∧ s1.pending_tool = none ∧
        s1.final_content_confirmed = false then _handle_thinking_overflow s1 else s1 with hs2
    have h2 : s2.sent_parts = s1.sent_parts := by
      rw [hs2]
      split_ifs with hg
      · exact (thinking_overflow_frame s1).2.2.1
      · rfl
    have h3 : ∃ ps3 : List Text,
        (_handle_content_overflow show_thinking s2).sent_parts = s2.sent_parts ++ ps3 := by
      rcases content_overflow_cases show_thinking s2 with heq | ⟨hc1, hc2⟩
      · exact ⟨[], by simp [heq]⟩
      · exact ⟨[overflowPart s2], (content_overflow_fired show_thinking s2 hc1 hc2).2.2.1⟩
    obtain ⟨ps3, hps3⟩ := h3
    refine ⟨ps1 ++ ps3, ?_⟩
    rw [(update_draft_frame _).2.2.1, hps3, h2, hps1, List.append_assoc]
  · simp only [hr, if_false, Bool.false_eq_true]
    exact ⟨ps1, hps1⟩

theorem streamStep_sent_mono (show_thinking : Bool) (s : StreamingState) (e : Event) :
    sent_content_len s ≤ sent_content_len (streamStep show_thinking s e) := by
  obtain ⟨ps, hps⟩ := streamStep_sent_ext show_thinking s e
  exact sent_len_le_of_ext _ _ ps hps

theorem overflowPart_in_window (s : StreamingState) (h2 : overflowPart0 s ≠ []) :
    overflowPart s <:+: fenceOpen ++ s.content.drop (sent_content_len s) := by
  have hcne : s.content.isEmpty = false := by
    by_contra hc
    have hce : s.content.isEmpty = true := by
      rcases h : s.content.isEmpty with _ | _
      · exact absurd h hc
      · rfl
    apply h2
    simp [overflowPart0, current_preview, hce, rstrip, lstrip]
  have hprev : current_preview s = s.content.drop (sent_content_len s) := by
    simp [current_preview, hcne]
  have hp0 : overflowPart0 s <+: current_preview s := by
    have h1 : overflowPart0 s <+: (current_preview s).take (overflowSplitPoint s) := rstrip_pre _
    exact h1.trans (List.take_prefix ..)
  rw [hprev] at hp0
  simp only [overflowPart]
  split_ifs with hicb
  · have h3 : fenceOpen ++ overflowPart0 s <+:
        fenceOpen ++ s.content.drop (sent_content_len s) := by
      obtain ⟨t, ht⟩ := hp0
      exact ⟨t, by rw [List.append_assoc, ht]⟩
    exact h3.isInfix
  · exact hp0.isInfix.trans (List.suffix_append ..).isInfix

theorem infix_fence_drop_lift (m base ext : Text) (j : Nat)
    (h : m <:+: fenceOpen ++ base.drop j) : m <:+: fenceOpen ++ (base ++ ext).drop j := by
  by_cases hj : j ≤ base.length
  · rw [List.drop_append_of_le_length hj]
    have hpre : fenceOpen ++ base.drop j <+: fenceOpen ++ (base.drop j ++ ext) := by
      refine ⟨ext, ?_⟩
      rw [List.append_assoc]
    exact h.trans hpre.isInfix
  · have hnil : base.drop j = [] := List.drop_eq_nil_of_le (by omega)
    rw [hnil] at h
    have hpre : fenceOpen ++ ([] : Text) <+: fenceOpen ++ (base ++ ext).drop j := by
      refine ⟨(base ++ ext).drop j, ?_⟩
      simp
    exact h.trans hpre.isInfix

theorem streamStep_delivered_ext (show_thinking : Bool) (s : StreamingState) (e : Event) :
    ∃ new : List Sent, (streamStep show_thinking s e).delivered = s.delivered ++ new ∧
      ∀ m ∈ answerTexts new, ∃ j : Nat, sent_content_len s ≤ j ∧
        m <:+: fenceOpen ++ ((streamStep show_thinking s e).content.drop j) := by
  simp only [streamStep]
  by_cases hr : e.render
  · simp only [hr, if_true]
    set s1 := _handle_chunk e.chunk s with hs1
    set s2 := if show_thinking = true ∧ s1.thinking_finalized = false ∧ s1.pending_tool = none ∧
        s1.final_content_confirmed = false then _handle_thinking_overflow s1 else s1 with hs2
    have hd1 : s1.delivered = s.delivered := (handle_chunk_frame e.chunk s).2.2.2.2.1
    have hd2 : ∃ ts : List Text, s2.delivered = s.delivered ++ ts.map Sent.thinking := by
      rw [hs2]
      split_ifs with hg
      · obtain ⟨ts, hts⟩ := (thinking_overflow_frame s1).2.2.2.2.2.2.2
        exact ⟨ts, by rw [hts, hd1]⟩
      · exact ⟨[], by simp [hd1]⟩
    have hsp2 : s2.sent_parts = s1.sent_parts := by
      rw [hs2]
      split_ifs with hg
      · exact (thinking_overflow_frame s1).2.2.1
      · rfl
    obtain ⟨ts2, hts2⟩ := hd2
    have hsentle : sent_content_len s ≤ sent_content_len s2 := by
      obtain ⟨ps, hps⟩ := handle_chunk_sent_ext e.chunk s
      exact sent_len_le_of_ext s s2 ps (by rw [hsp2, hs1]; exact hps)
    have hfinal_del : ∀ t : StreamingState, (_update_content_draft t).delivered = t.delivered :=
      fun t => (update_draft_frame t).2.2.2.2.2.2.2
    have hfinal_c : ∀ t : StreamingState, (_update_content_draft t).content = t.content :=
      fun t => (update_draft_frame t).1
    rcases content_overflow_cases show_thinking s2 with heq | ⟨hh1, hh2⟩
    · refine ⟨ts2.map Sent.thinking, ?_, ?_⟩
      · rw [hfinal_del, heq, hts2]
      · intro m hm
        rw [answerTexts_map_thinking] at hm
        simp at hm
    · obtain ⟨hc3, _, _, _, _, _, _, ⟨ts3, hts3⟩⟩ := content_overflow_fired show_thinking s2 hh1 hh2
      refine ⟨ts2.map Sent.thinking ++ (ts3.map Sent.thinking ++ [Sent.answer (overflowPart s2)]),
        ?_, ?_⟩
      · rw [hfinal_del, hts3, hts2]
        simp [List.append_assoc]
      · intro m hm
        have hmeq : m = overflowPart s2 := by
          simpa [answerTexts_append, answerTexts_map_thinking, answerTexts] using hm
        subst hmeq
        refine ⟨sent_content_len s2, hsentle, ?_⟩
        have hcontent : (_update_content_draft (_handle_content_overflow show_thinking s2)).content
            = s2.content := by
          rw [hfinal_c, hc3]
        rw [hcontent]
        exact overflowPart_in_window s2 hh2
  · simp only [hr, if_false, Bool.false_eq_true]
    refine ⟨[], ?_, ?_⟩
    · rw [(handle_chunk_frame e.chunk s).2.2.2.2.1]
      simp
    · intro m hm
      simp [answerTexts] at hm

theorem runFrom_ext (show_thinking : Bool) :
    ∀ (evs : List Event) (s : StreamingState),
      (s.content <+: (evs.foldl (fun t e => streamStep show_thinking t e) s).content) ∧
      sent_content_len s ≤
        sent_content_len (evs.foldl (fun t e => streamStep show_thinking t e) s) ∧
      ∃ new : List Sent,
        (evs.foldl (fun t e => streamStep show_thinking t e) s).delivered =
          s.delivered ++ new ∧
        ∀ m ∈ answerTexts new, ∃ j : Nat, sent_content_len s ≤ j ∧
          m <:+: fenceOpen ++
            ((evs.foldl (fun t e => streamStep show_thinking t e) s).content.drop j) := by
  intro evs
  induction evs with
  | nil =>
      intro s
      refine ⟨List.prefix_rfl, le_refl _, [], by simp, ?_⟩
      intro m hm
      simp [answerTexts] at hm
  | cons e rest ih =>
      intro s
      have hfold : (e :: rest).foldl (fun t e => streamStep show_thinking t e) s =
          rest.foldl (fun t e => streamStep show_thinking t e) (streamStep show_thinking s e) :=
        rfl
      obtain ⟨hc, hsent, new2, hdel2, hpred2⟩ := ih (streamStep show_thinking s e)
      obtain ⟨new1, hdel1, hpred1⟩ := streamStep_delivered_ext show_thinking s e
      have hstepc : (streamStep show_thinking s e).content = s.content ++ e.chunk.content :=
        streamStep_content show_thinking s e
      have hcpre : s.content <+:
          (rest.foldl (fun t e => streamStep show_thinking t e)
            (streamStep show_thinking s e)).content := by
        refine List.IsPrefix.trans ?_ hc
        rw [hstepc]
        exact List.prefix_append _ _
      refine ⟨by rw [hfold]; exact hcpre, ?_, ?_⟩
      · rw [hfold]
        exact le_trans (streamStep_sent_mono show_thinking s e) hsent
      · refine ⟨new1 ++ new2, ?_, ?_⟩
        · rw [hfold, hdel2, hdel1, List.append_assoc]
        · intro m hm
          rw [answerTexts_append, List.mem_append] at hm
          rcases hm with hm | hm
          · obtain ⟨j, hj, hinf⟩ := hpred1 m hm
            refine ⟨j, hj, ?_⟩
            obtain ⟨ext, hext⟩ := hc
            rw [hfold, ← hext]
            exact infix_fence_drop_lift m _ ext j hinf
          · obtain ⟨j, hj, hinf⟩ := hpred2 m hm
            exact ⟨j, le_trans (streamStep_sent_mono show_thinking s e) hj, by rw [hfold]; exact hinf⟩

theorem finalize_delivered_post (conv : Text → Text) (show_thinking : Bool) (s : StreamingState)
    (h2 : sent_content_len s < pyLen (finalContentOf s)) :
    ∃ new : List Sent, (_finalize_response conv show_thinking s).delivered = s.delivered ++ new ∧
      ∀ m ∈ answerTexts new,
        m <:+: fenceOpen ++ ((finalContentOf s).drop (sent_content_len s)) := by
  have hrem : remainingOf s = (finalContentOf s).drop (sent_content_len s) := by
    simp only [remainingOf, if_pos h2]
  have hrsuf : remainingOf s <:+: fenceOpen ++ ((finalContentOf s).drop (sent_content_len s)) := by
    rw [hrem]
    exact (List.suffix_append _ _).isInfix
  have hpartpred : ∀ (b : Bool) (p : Text),
      p ∈ _split_message_for_markdown conv
        (if b then fenceOpen ++ remainingOf s else remainingOf s) SAFE_MESSAGE_LENGTH →
      p <:+: fenceOpen ++ ((finalContentOf s).drop (sent_content_len s)) := by
    intro b p hp
    cases b with
    | true =>
        simp only [if_true] at hp
        have := split_markdown_part_of_mem conv _ _ p hp
        rwa [hrem] at this
    | false =>
        simp only [Bool.false_eq_true, if_false] at hp
        exact (split_markdown_part_of_mem conv _ _ p hp).trans hrsuf
  by_cases hre : s.reasoning.isEmpty
  · simp only [_finalize_response, hre, if_true]
    have hfalse : ¬ (show_thinking = true ∧ (List.isEmpty ([] : Text)) = false ∧
        s.thinking_finalized = false) := by
      intro ⟨_, hx, _⟩
      simp at hx
    simp only [hfalse, if_false]
    split_ifs with hflush
    · obtain ⟨-, -, -, -, -, -, hdel⟩ := send_final_content_frame conv s (remainingOf s)
      refine ⟨_, hdel, ?_⟩
      intro m hm
      rw [answerTexts_map_answer] at hm
      exact hpartpred s.in_code_block m hm
    · exact ⟨[], by simp, fun m hm => absurd hm (by simp [answerTexts])⟩
  · simp only [_finalize_response, hre, if_false, Bool.false_eq_true]
    split_ifs with h1 hflush hflush
    · obtain ⟨⟨hc, hr, hsp, htf, hicb, hconf⟩, hdel⟩ :=
        send_final_thinking_frame conv s (remainingOf s) (current_thinking s)
      obtain ⟨-, -, -, -, -, -, hdel2⟩ :=
        send_final_content_frame conv
          (_send_final_thinking conv s (remainingOf s) (current_thinking s)).1
          (_send_final_thinking conv s (remainingOf s) (current_thinking s)).2
      rcases hdel with ⟨hd, hr2⟩ | ⟨hd, hr2⟩
      · refine ⟨Sent.thinking (current_thinking s) ::
          (_split_message_for_markdown conv
            (if (_send_final_thinking conv s (remainingOf s) (current_thinking s)).1.in_code_block
              then fenceOpen ++
                (_send_final_thinking conv s (remainingOf s) (current_thinking s)).2
              else (_send_final_thinking conv s (remainingOf s) (current_thinking s)).2)
            SAFE_MESSAGE_LENGTH).map Sent.answer, ?_, ?_⟩
        · rw [hdel2, hd]
          simp
        · intro m hm
          simp only [answerTexts, answerTexts_map_answer] at hm
          rw [hicb, hr2] at hm
          exact hpartpred s.in_code_block m hm
      · rw [hr2] at hflush
        exact absurd hflush (by decide)
    · obtain ⟨⟨hc, hr, hsp, htf, hicb, hconf⟩, hdel⟩ :=
        send_final_thinking_frame conv s (remainingOf s) (current_thinking s)
      rcases hdel with ⟨hd, hr2⟩ | ⟨hd, hr2⟩
      · refine ⟨[Sent.thinking (current_thinking s)], hd, ?_⟩
        intro m hm
        simp [answerTexts] at hm
      · refine ⟨[Sent.combined (current_thinking s) (remainingOf s)], hd, ?_⟩
        intro m hm
        have hmeq : m = remainingOf s := by simpa [answerTexts] using hm
        subst hmeq
        exact hrsuf
    · obtain ⟨-, -, -, -, -, -, hdel⟩ := send_final_content_frame conv s (remainingOf s)
      refine ⟨_, hdel, ?_⟩
      intro m hm
      rw [answerTexts_map_answer] at hm
      exact hpartpred s.in_code_block m hm
    · exact ⟨[], by simp, fun m hm => absurd hm (by simp [answerTexts])⟩

theorem tool_step_no_delivery (show_thinking : Bool) (s : StreamingState) (e : Event)
    (htool : e.chunk.is_tool_use = true) :
    (streamStep show_thinking s e).delivered = s.delivered := by
  simp only [streamStep]
  have hchunk : ∃ s', _handle_chunk e.chunk s = _handle_tool_use e.chunk s' := by
    simp only [_handle_chunk, htool, if_true]
    exact ⟨_, rfl⟩
  obtain ⟨s', hchunk⟩ := hchunk
  have hd1 : (_handle_chunk e.chunk s).delivered = s.delivered :=
    (handle_chunk_frame e.chunk s).2.2.2.2.1
  have hpend : (_handle_chunk e.chunk s).pending_tool = some e.chunk.tool_name := by
    rw [hchunk]
    exact (tool_use_frame _ _).2.2.2.2.2.1
  have hstrip : pyStrip (current_preview (_handle_chunk e.chunk s)) = [] := by
    rw [hchunk]
    exact tool_use_preview_strip_empty _ _
  by_cases hr : e.render
  · simp only [hr, if_true]
    set s1 := _handle_chunk e.chunk s with hs1
    have hgate : ¬ (show_thinking = true ∧ s1.thinking_finalized = false ∧
        s1.pending_tool = none ∧ s1.final_content_confirmed = false) := by
      rintro ⟨-, -, hp, -⟩
      rw [hpend] at hp
      exact Option.noConfusion hp
    rw [if_neg hgate]
    have hskip : _handle_content_overflow show_thinking s1 = s1 :=
      content_overflow_skip show_thinking s1
        (Or.inr (overflowPart0_nil_of_ws_preview s1 hstrip))
    rw [hskip, (update_draft_frame s1).2.2.2.2.2.2.2]
    exact hd1
  · simp only [hr, if_false, Bool.false_eq_true]
    exact hd1

/-- C2 (counterexample): a stream whose single event carries answer text
"hello" and then invokes a tool moves that pre-tool text into the reasoning
trace and marks it sent without delivering it — but the final flush re-sends
the WHOLE answer (its else branch `remaining = final_content` fires because
`sent_content_len = len(final_content)`), so the pre-tool text "hello" IS
delivered as a permanent answer message, refuting the claim. -/
theorem c2_counterexample :
    (runStream false [⟨⟨[], "hello".toList, true, "t"⟩, true⟩]).reasoning =
        '\n' :: ("hello".toList ++ ['\n']) ∧
      (runStream false [⟨⟨[], "hello".toList, true, "t"⟩, true⟩]).sent_parts =
        ["hello".toList] ∧
      (runStream false [⟨⟨[], "hello".toList, true, "t"⟩, true⟩]).delivered = [] ∧
      (runGeneration id false [⟨⟨[], "hello".toList, true, "t"⟩, true⟩]).delivered =
        [Sent.answer "hello".toList] := by
  exact ⟨by decide, by decide, by decide, by decide⟩

/-- C2 (amended): what the tool-isolation mechanism actually guarantees.
(a) The tool-event step itself delivers no permanent message; (b) the tool
handler moves the stripped unsent answer into the reasoning trace and marks
the span sent without delivering it; (c) every answer message permanently
delivered by the rest of the stream is drawn from the accumulated answer at
an index at least the post-tool ledger mark (plus at most a reopening fence
prefix); (d) the same holds for the final flush PROVIDED the ledger mark is
still strictly below the final answer length — the claim fails exactly when
that proviso does not hold, because the flush then re-sends the whole
answer including the pre-tool span. -/
theorem c2_tool_isolation_amended (conv : Text → Text) (show_thinking : Bool)
    (evs1 evs2 : List Event) (e : Event) (htool : e.chunk.is_tool_use = true) :
    (streamStep show_thinking (runStream show_thinking evs1) e).delivered =
      (runStream show_thinking evs1).delivered ∧
    (∀ (s : StreamingState) (c : Chunk), pyStrip (current_preview s) ≠ [] →
      (_handle_tool_use c s).reasoning =
          s.reasoning ++ '\n' :: (pyStrip (current_preview s) ++ ['\n']) ∧
        (_handle_tool_use c s).sent_parts = s.sent_parts ++ [current_preview s] ∧
        (_handle_tool_use c s).delivered = s.delivered) ∧
    (∀ m ∈ answerTexts ((runStream show_thinking (evs1 ++ e :: evs2)).delivered.drop
        (runStream show_thinking (evs1 ++ [e])).delivered.length),
      ∃ j : Nat, sent_content_len (runStream show_thinking (evs1 ++ [e])) ≤ j ∧
        m <:+: fenceOpen ++ ((runStream show_thinking (evs1 ++ e :: evs2)).content.drop j)) ∧
    (sent_content_len (runStream show_thinking (evs1 ++ e :: evs2)) <
        pyLen (finalContentOf (runStream show_thinking (evs1 ++ e :: evs2))) →
      ∀ m ∈ answerTexts ((runGeneration conv show_thinking (evs1 ++ e :: evs2)).delivered.drop
          (runStream show_thinking (evs1 ++ e :: evs2)).delivered.length),
        ∃ j : Nat, sent_content_len (runStream show_thinking (evs1 ++ [e])) ≤ j ∧
          m <:+: fenceOpen ++
            ((finalContentOf (runStream show_thinking (evs1 ++ e :: evs2))).drop j)) := by
  have hsplit : runStream show_thinking (evs1 ++ e :: evs2) =
      evs2.foldl (fun t ev => streamStep show_thinking t ev)
        (runStream show_thinking (evs1 ++ [e])) := by
    simp only [runStream]
    rw [show evs1 ++ e :: evs2 = (evs1 ++ [e]) ++ evs2 by simp, List.foldl_append]
  obtain ⟨hcpre, hsent, new, hdel, hpred⟩ :=
    runFrom_ext show_thinking evs2 (runStream show_thinking (evs1 ++ [e]))
  refine ⟨tool_step_no_delivery show_thinking (runStream show_thinking evs1) e htool,
    ?_, ?_, ?_⟩
  · intro s c h
    obtain ⟨h1, h2, h3⟩ := tool_use_moves c s h
    exact ⟨h1, h2, h3⟩
  · intro m hm
    rw [hsplit, hdel, List.drop_left] at hm
    obtain ⟨j, hj, hinf⟩ := hpred m hm
    refine ⟨j, hj, ?_⟩
    rw [hsplit]
    exact hinf
  · intro hlt m hm
    obtain ⟨new2, hdel2, hpred2⟩ :=
      finalize_delivered_post conv show_thinking (runStream show_thinking (evs1 ++ e :: evs2)) hlt
    simp only [runGeneration] at hm
    rw [hdel2, List.drop_left] at hm
    refine ⟨sent_content_len (runStream show_thinking (evs1 ++ e :: evs2)), ?_, hpred2 m hm⟩
    rw [hsplit]
    exact hsent

/-- C2 (witness): instantiating the amended theorem on the concrete stream
"plan"-then-tool followed by "answer": the tool step delivers nothing. -/
theorem c2_witness :
    (streamStep false (runStream false []) ⟨⟨[], "plan".toList, true, "t"⟩, true⟩).delivered =
      (runStream false []).delivered :=
  (c2_tool_isolation_amended id false [] [⟨⟨[], "answer".toList, false, ""⟩, true⟩]
    ⟨⟨[], "plan".toList, true, "t"⟩, true⟩ rfl).1

/-! ## The confirmation threshold and the short-answer flush (C7) -/

theorem c7_inv (show_thinking : Bool) (evs : List Event)
    (hnotool : ∀ ev ∈ evs, ev.chunk.is_tool_use = false)
    (hshort : ∀ k, k ≤ evs.length →
      pyLen (pyStrip ((runStream show_thinking (evs.take k)).content)) <
        FINAL_CONTENT_MIN_LENGTH)
    (hsmall : ∀ k, k ≤ evs.length →
      pyLen ((runStream show_thinking (evs.take k)).content) < SAFE_MESSAGE_LENGTH - 100) :
    ∀ k, k ≤ evs.length →
      (runStream show_thinking (evs.take k)).sent_parts = [] ∧
      (runStream show_thinking (evs.take k)).in_code_block = false ∧
      (runStream show_thinking (evs.take k)).final_content_confirmed = false ∧
      answerTexts (runStream show_thinking (evs.take k)).delivered = [] := by
  intro k
  induction k with
  | zero =>
      intro _
      exact ⟨rfl, rfl, rfl, rfl⟩
  | succ n ih =>
      intro hk
      have hn : n ≤ evs.length := Nat.le_of_succ_le hk
      have hlt : n < evs.length := hk
      obtain ⟨hsp, hicb, hconf, hans⟩ := ih hn
      have htake : evs.take (n + 1) = evs.take n ++ [evs.get ⟨n, hlt⟩] := by
        rw [List.take_succ, List.getElem?_eq_getElem hlt]
        rfl
      have hstep : runStream show_thinking (evs.take (n + 1)) =
          streamStep show_thinking (runStream show_thinking (evs.take n))
            (evs.get ⟨n, hlt⟩) := by
        simp only [runStream, htake, List.foldl_append, List.foldl_cons, List.foldl_nil]
      set s := runStream show_thinking (evs.take n) with hs
      set ev := evs.get ⟨n, hlt⟩ with hev
      have hmem : ev ∈ evs := by
        rw [hev]
        exact List.get_mem evs n hlt
      have htool : ev.chunk.is_tool_use = false := hnotool ev hmem
      obtain ⟨hc1, htf1, hicb1, hstp1, hdel1, hntool, -, -⟩ := handle_chunk_frame ev.chunk s
      obtain ⟨hsp1, hconf1⟩ := hntool htool
      rw [hstep]
      simp only [streamStep]
      by_cases hr : ev.render
      · simp only [hr, if_true]
        set s1 := _handle_chunk ev.chunk s with hs1
        set s2 := if show_thinking = true ∧ s1.thinking_finalized = false ∧
            s1.pending_tool = none ∧ s1.final_content_confirmed = false then
          _handle_thinking_overflow s1 else s1 with hs2
        have h2 : s2.sent_parts = [] ∧ s2.in_code_block = false ∧
            s2.final_content_confirmed = false ∧ answerTexts s2.delivered = [] ∧
            s2.content = s1.content := by
          rw [hs2]
          split_ifs with hg
          · obtain ⟨hcon, -, hspx, htfx, hicbx, -, hcfx, ⟨ts, hdx⟩⟩ := thinking_overflow_frame s1
            refine ⟨by rw [hspx, hsp1]; exact hsp, by rw [hicbx, hicb1]; exact hicb,
              by rw [hcfx, hconf1]; exact hconf, ?_, hcon⟩
            rw [hdx, answerTexts_append, answerTexts_map_thinking, List.append_nil, hdel1]
            exact hans
          · exact ⟨by rw [hsp1]; exact hsp, by rw [hicb1]; exact hicb,
              by rw [hconf1]; exact hconf, by rw [hdel1]; exact hans, rfl⟩
        obtain ⟨hsp2, hicb2, hconf2, hans2, hcc2⟩ := h2
        have hceq : (runStream show_thinking (evs.take (n + 1))).content = s2.content := by
          rw [hstep, streamStep_content, hcc2, hc1]
        have hclen : pyLen s2.content < SAFE_MESSAGE_LENGTH - 100 := by
          have hx := hsmall (n + 1) hk
          rw [hceq] at hx
          exact hx
        have hsent2 : sent_content_len s2 = 0 := by
          rw [sent_content_len_eq, hsp2]
          rfl
        have hprev2 : pyLen (current_preview s2) < SAFE_MESSAGE_LENGTH - 100 := by
          simp only [current_preview]
          split_ifs with hce
          · have h0 : pyLen ([] : Text) = 0 := rfl
            have hS : SAFE_MESSAGE_LENGTH = 3900 := rfl
            omega
          · rw [hsent2, List.drop_zero]
            exact hclen
        have hskip : _handle_content_overflow show_thinking s2 = s2 :=
          content_overflow_skip show_thinking s2 (Or.inl hprev2)
        rw [hskip]
        have hstrip2 : pyLen (pyStrip (current_preview s2)) < FINAL_CONTENT_MIN_LENGTH := by
          simp only [current_preview]
          split_ifs with hce
          · have h0 : pyLen (pyStrip ([] : Text)) = 0 := rfl
            have hF : FINAL_CONTENT_MIN_LENGTH = 100 := rfl
            omega
          · rw [hsent2, List.drop_zero]
            have hx := hshort (n + 1) hk
            rw [hceq] at hx
            exact hx
        obtain ⟨hcU, hrU, hspU, hstU, htfU, hicbU, hptU, hdelU⟩ := update_draft_frame s2
        refine ⟨by rw [hspU]; exact hsp2, by rw [hicbU]; exact hicb2, ?_,
          by rw [hdelU]; exact hans2⟩
        rw [update_draft_confirmed_small s2 hstrip2]
        exact hconf2
      · simp only [hr, if_false, Bool.false_eq_true]
        exact ⟨by rw [hsp1]; exact hsp, by rw [hicb1]; exact hicb,
          by rw [hconf1]; exact hconf, by rw [hdel1]; exact hans⟩

/-- C7 (counterexample): the confirmation flag flips at a trimmed length of
EXACTLY the 100-character threshold (the source tests `>=`, the claim and
spec say "exceeds", i.e. `>`): on a stream whose trimmed unsent answer
never exceeds 100 characters (it reaches exactly 100), the flag still
becomes true. -/
theorem c7_counterexample :
    pyLen (pyStrip (current_preview initState)) ≤ FINAL_CONTENT_MIN_LENGTH ∧
      pyLen (pyStrip (current_preview
          (runStream false [⟨⟨[], List.replicate 100 'x', false, ""⟩, true⟩]))) ≤
        FINAL_CONTENT_MIN_LENGTH ∧
      (runStream false
          [⟨⟨[], List.replicate 100 'x', false, ""⟩, true⟩]).final_content_confirmed = true := by
  exact ⟨by decide, by decide, by decide⟩

/-- C7 (amended): on a tool-free stream whose accumulated answer stays below
the overflow window and whose trimmed answer stays STRICTLY below the
100-character threshold at every step, `final_content_confirmed` stays
false throughout and no answer message is delivered during the stream; and
whenever the answer has any non-whitespace, the final flush delivers it in
full: the permanently delivered answer components of finalization are
exactly the whole accumulated answer (possibly combined with the thinking)
or its markdown split — never empty.  (The claim's "exceeds" must read "is
at least" to match the source's `>=` test, per the counterexample.) -/
theorem c7_confirmation_amended (conv : Text → Text) (show_thinking : Bool) (evs : List Event)
    (hnotool : ∀ ev ∈ evs, ev.chunk.is_tool_use = false)
    (hshort : ∀ k, k ≤ evs.length →
      pyLen (pyStrip ((runStream show_thinking (evs.take k)).content)) <
        FINAL_CONTENT_MIN_LENGTH)
    (hsmall : ∀ k, k ≤ evs.length →
      pyLen ((runStream show_thinking (evs.take k)).content) < SAFE_MESSAGE_LENGTH - 100) :
    (∀ k, k ≤ evs.length →
      (runStream show_thinking (evs.take k)).final_content_confirmed = false ∧
        answerTexts (runStream show_thinking (evs.take k)).delivered = []) ∧
    (pyStrip (runStream show_thinking evs).content ≠ [] →
      ∃ new : List Sent,
        (runGeneration conv show_thinking evs).delivered =
          (runStream show_thinking evs).delivered ++ new ∧
        answerTexts new ≠ [] ∧
        (answerTexts new = [(runStream show_thinking evs).content] ∨
          answerTexts new =
            _split_message_for_markdown conv (runStream show_thinking evs).content
              SAFE_MESSAGE_LENGTH)) := by
  have hinv := c7_inv show_thinking evs hnotool hshort hsmall
  refine ⟨fun k hk => ⟨(hinv k hk).2.2.1, (hinv k hk).2.2.2⟩, ?_⟩
  intro hne
  obtain ⟨hsp, hicb, hconf, hans⟩ : (runStream show_thinking evs).sent_parts = [] ∧
      (runStream show_thinking evs).in_code_block = false ∧
      (runStream show_thinking evs).final_content_confirmed = false ∧
      answerTexts (runStream show_thinking evs).delivered = [] := by
    have hx := hinv evs.length (le_refl _)
    rwa [List.take_length] at hx
  have hcne : (runStream show_thinking evs).content ≠ [] := by
    intro hcnil
    apply hne
    rw [hcnil]
    rfl
  have hcemp : (runStream show_thinking evs).content.isEmpty = false := by
    rcases hh : (runStream show_thinking evs).content with _ | ⟨x, xs⟩
    · exact absurd hh hcne
    · rfl
  have hfc : finalContentOf (runStream show_thinking evs) =
      (runStream show_thinking evs).content := by
    simp [finalContentOf, hcemp]
  have hsent0 : sent_content_len (runStream show_thinking evs) = 0 := by
    rw [sent_content_len_eq, hsp]
    rfl
  have hx : 0 < pyLen ((runStream show_thinking evs).content) := by
    rw [pyLen_eq]
    exact List.length_pos.mpr hcne
  have hrem : remainingOf (runStream show_thinking evs) =
      (runStream show_thinking evs).content := by
    simp only [remainingOf, hsent0, hfc]
    rw [if_pos hx, List.drop_zero]
  have hstripne : (pyStrip (remainingOf (runStream show_thinking evs))).isEmpty = false := by
    rw [hrem]
    rcases hh : pyStrip ((runStream show_thinking evs).content) with _ | ⟨x, xs⟩
    · exact absurd hh hne
    · rfl
  by_cases hre : (runStream show_thinking evs).reasoning.isEmpty
  · simp only [runGeneration, _finalize_response, hre, if_true]
    have hfalse : ¬ (show_thinking = true ∧ (List.isEmpty ([] : Text)) = false ∧
        (runStream show_thinking evs).thinking_finalized = false) := by
      rintro ⟨-, hxx, -⟩
      simp at hxx
    simp only [hfalse, if_false, hstripne, if_true]
    rw [hrem]
    obtain ⟨-, -, -, -, -, -, hdel⟩ :=
      send_final_content_frame conv (runStream show_thinking evs)
        (remainingOf (runStream show_thinking evs))
    simp only [hicb, Bool.false_eq_true, if_false, hrem] at hdel
    refine ⟨_, hdel, ?_, Or.inr ?_⟩
    · rw [answerTexts_map_answer]
      exact split_markdown_ne_nil conv _ _ hcne
    · rw [answerTexts_map_answer]
  · simp only [runGeneration, _finalize_response, hre, if_false, Bool.false_eq_true]
    split_ifs with h1 hflush
    · obtain ⟨⟨hcX, hrX, hspX, htfX, hicbX, hconfX⟩, hdelX⟩ :=
        send_final_thinking_frame conv (runStream show_thinking evs)
          (remainingOf (runStream show_thinking evs))
          (current_thinking (runStream show_thinking evs))
      obtain ⟨-, -, -, -, -, -, hdel2⟩ :=
        send_final_content_frame conv
          (_send_final_thinking conv (runStream show_thinking evs)
            (remainingOf (runStream show_thinking evs))
            (current_thinking (runStream show_thinking evs))).1
          (_send_final_thinking conv (runStream show_thinking evs)
            (remainingOf (runStream show_thinking evs))
            (current_thinking (runStream show_thinking evs))).2
      set sT := _send_final_thinking conv (runStream show_thinking evs)
        (remainingOf (runStream show_thinking evs))
        (current_thinking (runStream show_thinking evs)) with hsT
      rcases hdelX with ⟨hd, hr2⟩ | ⟨hd, hr2⟩
      · refine ⟨Sent.thinking (current_thinking (runStream show_thinking evs)) ::
          (_split_message_for_markdown conv
            (if sT.1.in_code_block then fenceOpen ++ sT.2 else sT.2)
            SAFE_MESSAGE_LENGTH).map Sent.answer, ?_, ?_, Or.inr ?_⟩
        · rw [hdel2, hd]
          simp
        · simp only [answerTexts, answerTexts_map_answer, hicbX, hicb, Bool.false_eq_true,
            if_false, hr2, hrem]
          exact split_markdown_ne_nil conv _ _ hcne
        · simp only [answerTexts, answerTexts_map_answer, hicbX, hicb, Bool.false_eq_true,
            if_false, hr2, hrem]
      · rw [hr2] at hflush
        exact absurd hflush (by decide)
    · obtain ⟨⟨hcX, hrX, hspX, htfX, hicbX, hconfX⟩, hdelX⟩ :=
        send_final_thinking_frame conv (runStream show_thinking evs)
          (remainingOf (runStream show_thinking evs))
          (current_thinking (runStream show_thinking evs))
      rcases hdelX with ⟨hd, hr2⟩ | ⟨hd, hr2⟩
      · rw [hr2] at hflush
        exact absurd hstripne hflush
      · refine ⟨[Sent.combined (current_thinking (runStream show_thinking evs))
          (remainingOf (runStream show_thinking evs))], hd, ?_, Or.inl ?_⟩
        · simp [answerTexts]
        · simp only [answerTexts]
          rw [hrem]
    · rw [hrem]
      obtain ⟨-, -, -, -, -, -, hdel⟩ :=
        send_final_content_frame conv (runStream show_thinking evs)
          (remainingOf (runStream show_thinking evs))
      simp only [hicb, Bool.false_eq_true, if_false, hrem] at hdel
      refine ⟨_, hdel, ?_, Or.inr ?_⟩
      · rw [answerTexts_map_answer]
        exact split_markdown_ne_nil conv _ _ hcne
      · rw [answerTexts_map_answer]

/-- C7 (witness): the amended theorem instantiated on the tool-free
two-character stream "hi": the confirmation flag is still false after the
whole stream. -/
theorem c7_witness :
    (runStream false ([⟨⟨[], "hi".toList, false, ""⟩, true⟩].take 1)).final_content_confirmed =
      false :=
  ((c7_confirmation_amended id false [⟨⟨[], "hi".toList, false, ""⟩, true⟩]
      (by decide) (by decide) (by decide)).1 1 (by decide)).1
